import Mathlib

/-!
Shallow embedding of the git metadata-cache core of trac
(tracopt/versioncontrol/git/PyGIT.py) and proofs of the frozen claims.

Revisions and other byte/character strings from the Python source are
modelled as `List Char`.  Python dictionaries are modelled as association
lists with dict-style update (replace the first binding of a key, append
new keys at the end, mirroring insertion order).  Python `set` objects are
modelled as duplicate-free lists built with an add-if-absent operation;
iteration order of a Python set is unspecified, so wherever set iteration
order could matter the model fixes the insertion order of the list.
Mutation of shared Python objects is made explicit: the builder re-reads
and re-stores entries, and the commit-metadata cache uses an explicit
store of value-list cells so that aliasing between the cache and values
returned to callers is visible.
-/

namespace PyGit

/-- Revisions (hex shas) as character lists. -/
abbrev Rev := List Char

/-- Generic strings of the model (refnames, commit text, ...). -/
abbrev Str := List Char

/-- Python `set.add` on the list model: append if absent. -/
def listAdd (xs : List Rev) (x : Rev) : List Rev :=
  if x ∈ xs then xs else xs ++ [x]

/-- Python `set.update` on the list model: add every element of `ys`. -/
def listUnion (xs ys : List Rev) : List Rev :=
  ys.foldl listAdd xs

/-- One value of `rev_dict`: `(children(rev), parents(rev), ordinal_id(rev),
rheads(rev))`, exactly the 4-tuple stored by `Storage._build_rev_cache`. -/
structure RevEntry where
  children : List Rev
  parents : List Rev
  ordNum : Nat
  rheads : List Rev
deriving Repr, DecidableEq

/-- `rev_dict` (the `new_db` of the builder): a Python dict
revision -> entry, as an association list. -/
abbrev RevDb := List (Rev × RevEntry)

/-- Python dict lookup `db[k]` / `db.get(k)`. -/
def dbFind (db : RevDb) (k : Rev) : Option RevEntry :=
  (db.find? (fun kv => kv.1 == k)).map (fun kv => kv.2)

/-- Python dict store `db[k] = v`: replace the first binding of `k`,
append if `k` is new (dict insertion order). -/
def dbSet : RevDb → Rev → RevEntry → RevDb
  | [], k, v => [(k, v)]
  | kv :: rest, k, v =>
    if kv.1 = k then (k, v) :: rest else kv :: dbSet rest k v

/-- The keys of the dict, in insertion order. -/
def dbKeys (db : RevDb) : List Rev :=
  db.map (fun kv => kv.1)

/-- The placeholder entry `(set(), [], 0, set())` that
`new_db.setdefault(parent, ...)` installs for a parent revision that has
not yet been seen as the head of an ancestry line. -/
def emptyEntry : RevEntry :=
  ⟨[], [], 0, []⟩

/-- The per-parent update of the builder loop: fetch (or create) the
parent entry, add `rev` to the parent's children and merge `rheads1`
(the child's reachable-heads set) into the parent's rheads.  The in-place
mutation of the Python sets is modelled by re-storing the entry. -/
def updateParent (rev : Rev) (rheads1 : List Rev) (db : RevDb) (p : Rev) : RevDb :=
  let pe := (dbFind db p).getD emptyEntry
  dbSet db p ⟨listAdd pe.children rev, pe.parents, pe.ordNum, listUnion pe.rheads rheads1⟩

/-- Processing of one ancestry line `rev parent*` at 0-based index `i`
(the body of the `for ord_rev, revs in enumerate(rev_list)` loop of
`Storage._build_rev_cache`, without the short-rev map which is built by
`buildSdb` below): finalize the entry of `rev` with ordinal `i + 1` and
update each parent's children/rheads. -/
def buildLine (headRevs : List Rev) (db : RevDb) (i : Nat) (line : Rev × List Rev) : RevDb :=
  let rev := line.1
  let parents := line.2
  let e0 := (dbFind db rev).getD emptyEntry
  let rheads1 := if rev ∈ headRevs then listAdd e0.rheads rev else e0.rheads
  let db1 := dbSet db rev ⟨e0.children, parents, i + 1, rheads1⟩
  parents.foldl (updateParent rev rheads1) db1

/-- The builder loop over all ancestry lines, starting at index `i`. -/
def buildDbGo (headRevs : List Rev) : List (Rev × List Rev) → Nat → RevDb → RevDb
  | [], _, db => db
  | line :: rest, i, db => buildDbGo headRevs rest (i + 1) (buildLine headRevs db i line)

/-- `new_db` as built by `Storage._build_rev_cache` from the parsed
ancestry listing (each line already split into head revision and
parents). -/
def buildDb (headRevs : List Rev) (revList : List (Rev × List Rev)) : RevDb :=
  buildDbGo headRevs revList 0 []

/-- Hexadecimal digit test (`int(-, 16)` accepts exactly these). -/
def isHexDigit (c : Char) : Bool :=
  (('0' ≤ c) && (c ≤ '9')) || (('a' ≤ c) && (c ≤ 'f')) || (('A' ≤ c) && (c ≤ 'F'))

/-- Value of one hexadecimal digit (unused branch defaults to 0; the code
only reaches this on hex input, enforced by hypotheses in the theorems). -/
def hexDigitVal (c : Char) : Nat :=
  if ('0' ≤ c) && (c ≤ '9') then c.toNat - Char.toNat '0'
  else if ('a' ≤ c) && (c ≤ 'f') then c.toNat - Char.toNat 'a' + 10
  else if ('A' ≤ c) && (c ≤ 'F') then c.toNat - Char.toNat 'A' + 10
  else 0

/-- `Storage.__rev_key`: `int(rev[:4], 16)`, the 16-bit bucket key made of
the first four hex digits of a revision. -/
def revKey (rev : Rev) : Nat :=
  (rev.take 4).foldl (fun a c => a * 16 + hexDigitVal c) 0

/-- `GitCore.is_sha`: proper hex string between 4 and 40 characters. -/
def isSha (s : Rev) : Bool :=
  (4 ≤ s.length && s.length ≤ 40) && s.all isHexDigit

/-- `srev_dict` as an association list bucket-key -> tuple of revisions
(the dict/array distinction of the source is a representation choice that
does not change lookup results). -/
abbrev SrevDb := List (Nat × List Rev)

/-- `new_sdb.setdefault(key, []).append(rev)`. -/
def sdbAdd (sdb : SrevDb) (k : Nat) (rev : Rev) : SrevDb :=
  match sdb with
  | [] => [(k, [rev])]
  | kv :: rest =>
    if kv.1 = k then (k, kv.2 ++ [rev]) :: rest else kv :: sdbAdd rest k rev

/-- The short-rev map built by the builder loop: bucket each line's head
revision by `revKey`. -/
def buildSdb : List (Rev × List Rev) → SrevDb → SrevDb
  | [], sdb => sdb
  | line :: rest, sdb => buildSdb rest (sdbAdd sdb (revKey line.1) line.1)

/-- Bucket lookup in `srev_dict`. -/
def srevFind (sdb : SrevDb) (k : Nat) : Option (List Rev) :=
  (sdb.find? (fun kv => kv.1 == k)).map (fun kv => kv.2)

/-- The reference table `refs_dict`: refname -> revision. -/
abbrev RefsDict := List (Str × Rev)

/-- Python dict lookup on the reference table. -/
def refsFind (refs : RefsDict) (k : Str) : Option Rev :=
  (refs.find? (fun kv => kv.1 == k)).map (fun kv => kv.2)

/-- The literal refname mark of local branches. -/
def headsMark : Str := "refs/heads/".data

/-- The symbolic HEAD key of `refs_dict`. -/
def headKey : Str := "HEAD".data

/-- `head_revs`: the set of revisions some `refs/heads/` refname points
at. -/
def headRevsOf (refs : RefsDict) : List Rev :=
  (refs.filter (fun kv => headsMark.isPrefixOf kv.1)).map (fun kv => kv.2)

/-- `Storage.RevCache`: the immutable snapshot value object. -/
structure RevCache where
  youngest_rev : Option Rev
  oldest_rev : Option Rev
  rev_dict : RevDb
  refs_dict : RefsDict
  srev_dict : SrevDb
deriving Repr, DecidableEq

/-- `RevCache.empty()`. -/
def RevCache.empty : RevCache :=
  ⟨none, none, [], [], []⟩

/-- `Storage._build_rev_cache` on already-parsed inputs: the reference
table (after `_get_refs`) and the ancestry listing split into
`(rev, parents)` lines.  String interning (`_rev_reuse`, `_rheads_reuse`)
does not change contents and is dropped. -/
def buildRevCache (refs : RefsDict) (revList : List (Rev × List Rev)) : RevCache :=
  let youngest := (revList.head?).map (fun line => line.1)
  let oldest := (revList.getLast?).map (fun line => line.1)
  ⟨youngest, oldest, buildDb (headRevsOf refs) revList, refs, buildSdb revList []⟩

/-- `Storage.__SREV_MIN`: the configured floor of short-rev lengths. -/
def SREV_MIN : Nat := 4

/-- The body of the lengthening loop of `Storage.shortrev`, with the
remaining number of candidate lengths as a structural fuel
(`shortrevFrom` below passes `40 - l`, so the loop tries exactly
`l, l+1, ..., 39` like `xrange(l, 40)`). -/
def shortrevGo (rev : Rev) (crevs : List Rev) : Nat → Nat → Rev
  | _, 0 => rev
  | l, fuel + 1 =>
    let srev := rev.take l
    if crevs.all (fun r => ¬ (r.take l = srev)) then srev
    else shortrevGo rev crevs (l + 1) fuel

/-- The lengthening loop of `Storage.shortrev`:
`for l in xrange(start, 40): if rev[:l] not in [r[:l] for r in crevs]:
return rev[:l]`, falling through to the full `rev`. -/
def shortrevFrom (rev : Rev) (crevs : List Rev) (l : Nat) : Rev :=
  shortrevGo rev crevs l (40 - l)

/-- `Storage.shortrev(rev, min_len)`.  The bucket lookup
`_rev_cache.srev_dict[...]` cannot fail for a revision present in a built
cache; a missing bucket is modelled as the empty bucket. -/
def shortrev (rc : RevCache) (rev : Rev) (minLen : Nat) : Option Rev :=
  let minLen := if minLen < SREV_MIN then SREV_MIN else minLen
  match dbFind rc.rev_dict rev with
  | none => none
  | some _ =>
    let srev := rev.take minLen
    let srevs := ((srevFind rc.srev_dict (revKey rev)).getD []).dedup
    if srevs.length = 1 then some srev
    else
      let crevs := srevs.filter (fun r => ¬ (r = rev))
      some (shortrevFrom rev crevs (minLen + 1))

/-- `Storage.fullrev(srev)`. -/
def fullrev (rc : RevCache) (srev : Rev) : Option Rev :=
  if srev.length = 40 && (dbFind rc.rev_dict srev).isSome then some srev
  else if ¬ (isSha srev) then none
  else
    match srevFind rc.srev_dict (revKey srev) with
    | none => none
    | some bucket =>
      match bucket.filter (fun s => srev.isPrefixOf s) with
      | [s] => some s
      | _ => none

/-- The error kinds raised by the storage layer. -/
inductive GitErr where
  | gitErrorSha
  | gitError (msg : Str)
deriving Repr, DecidableEq

/-- `Storage.history_relative_rev(sha, rel_pos)` over a revision dict:
unknown sha raises `GitErrorSha`; offset 0 is identity; a target ordinal
outside `1..len(db)` gives `None`; otherwise the key holding the target
ordinal is looked up, a miss being the fatal internal inconsistency. -/
def historyRelativeRev (db : RevDb) (sha : Rev) (relPos : Int) : Except GitErr (Option Rev) :=
  match dbFind db sha with
  | none => .error .gitErrorSha
  | some e =>
    if relPos = 0 then .ok (some sha)
    else
      let linRev : Int := (e.ordNum : Int) + relPos
      if linRev < 1 ∨ linRev > (db.length : Int) then .ok none
      else
        match db.find? (fun kv => ((kv.2.ordNum : Int) == linRev)) with
        | some kv => .ok (some kv.1)
        | none => .error (.gitError "internal inconsistency detected".data)

/-- Sorting of revision lists as served to callers (`sorted(...)`). -/
def sortRevs (rs : List Rev) : List Rev :=
  rs.insertionSort (fun a b => a ≤ b)

/-- `Storage.children(sha)`: direct children, sorted; unknown sha gives
the empty list. -/
def childrenQ (db : RevDb) (sha : Rev) : List Rev :=
  match dbFind db sha with
  | none => []
  | some e => sortRevs e.children

/-- `Storage.parents(sha)`: the stored parent tuple; unknown sha gives
the empty list. -/
def parentsQ (db : RevDb) (sha : Rev) : List Rev :=
  match dbFind db sha with
  | none => []
  | some e => e.parents

/-- The loop of `Storage.children_recursive`: pop the head of the work
list, yield it, and enqueue its not-yet-seen children after marking them
seen.  The fuel argument makes the recursion structural; `none` means
either fuel exhaustion or the KeyError a child missing from `rev_dict`
would raise. -/
def bfsAux (db : RevDb) : Nat → List Rev → List Rev → Option (List Rev)
  | 0, _, _ => none
  | _ + 1, [], _ => some []
  | fuel + 1, p :: rest, seen =>
    match dbFind db p with
    | none => none
    | some e =>
      let kids := e.children.filter (fun c => ¬ (c ∈ seen))
      (bfsAux db fuel (rest ++ kids) (seen ++ kids)).map (fun l => p :: l)

/-- `Storage.children_recursive(sha)` run to completion: seed the queue
and the seen set with the direct children, then drain the queue.  The
fuel `db.length + children.length + 1` is an upper bound on the number of
loop iterations (proved sufficient in the claim's theorem). -/
def childrenRecursive (db : RevDb) (sha : Rev) : Option (List Rev) :=
  match dbFind db sha with
  | none => none
  | some e => bfsAux db (db.length + e.children.length + 1) e.children e.children

/-- `RevCache.iter_branches()`: all `refs/heads/` entries as
`(name-without-mark, rev, is-HEAD)` triples, where the HEAD comparison is
against the symbolic refname stored under the HEAD key. -/
def iterBranches (rc : RevCache) : List (Str × Rev × Bool) :=
  let head := refsFind rc.refs_dict headKey
  rc.refs_dict.filterMap (fun kv =>
    if headsMark.isPrefixOf kv.1 then
      some (kv.1.drop 11, kv.2, some kv.1 == head)
    else none)

/-- Python tuple comparison on `(name, rev)` pairs (lexicographic). -/
def pairLe (a b : Str × Rev) : Prop :=
  a.1 < b.1 ∨ (a.1 = b.1 ∧ a.2 ≤ b.2)

instance : DecidableRel pairLe := fun a b => by
  unfold pairLe; infer_instance

instance : IsTotal (Str × Rev) pairLe where
  total a b := by
    rcases lt_trichotomy a.1 b.1 with h | h | h
    · exact Or.inl (Or.inl h)
    · rcases le_total a.2 b.2 with h2 | h2
      · exact Or.inl (Or.inr ⟨h, h2⟩)
      · exact Or.inr (Or.inr ⟨h.symm, h2⟩)
    · exact Or.inr (Or.inl h)

instance : IsTrans (Str × Rev) pairLe where
  trans a b c hab hbc := by
    rcases hab with h1 | ⟨h1, h1v⟩
    · rcases hbc with h2 | ⟨h2, _⟩
      · exact Or.inl (h1.trans h2)
      · exact Or.inl (h2 ▸ h1)
    · rcases hbc with h2 | ⟨h2, h2v⟩
      · exact Or.inl (h1 ▸ h2)
      · exact Or.inr ⟨h1.trans h2, h1v.trans h2v⟩

/-- `Storage.get_branch_contains(sha, resolve=True)`: the reachable-head
branches of `sha` as sorted `(name, rev)` pairs; unknown sha gives the
empty list. -/
def getBranchContainsResolve (rc : RevCache) (sha : Rev) : List (Str × Rev) :=
  match dbFind rc.rev_dict sha with
  | none => []
  | some e =>
    ((iterBranches rc).filterMap (fun t =>
        if t.2.1 ∈ e.rheads then some (t.1, t.2.1) else none)).insertionSort pairLe

/-- `Storage.get_branch_contains(sha, resolve=False)`: the raw
reachable-head set. -/
def getBranchContainsPlain (rc : RevCache) (sha : Rev) : List Rev :=
  match dbFind rc.rev_dict sha with
  | none => []
  | some e => e.rheads

/-- `SizedDict`: size-bounded dictionary with FIFO replacement.  The dict
part is an association list (insertion-ordered, like a Python dict), the
`__key_fifo` deque is a key list. -/
structure SizedDict (β : Type) where
  maxSize : Nat
  entries : List (Rev × β)
  keyFifo : List Rev
deriving Repr, DecidableEq

/-- A fresh `SizedDict(max_size)`. -/
def SizedDict.mk0 (β : Type) (maxSize : Nat) : SizedDict β :=
  ⟨maxSize, [], []⟩

/-- Dict membership `name in self`. -/
def sdContains (d : SizedDict β) (k : Rev) : Bool :=
  d.entries.any (fun kv => kv.1 == k)

/-- Dict lookup `self[name]`. -/
def sdGet (d : SizedDict β) (k : Rev) : Option β :=
  (d.entries.find? (fun kv => kv.1 == k)).map (fun kv => kv.2)

/-- Dict store on the underlying entries list. -/
def sdStore : List (Rev × β) → Rev → β → List (Rev × β)
  | [], k, v => [(k, v)]
  | kv :: rest, k, v =>
    if kv.1 = k then (k, v) :: rest else kv :: sdStore rest k v

/-- Dict delete `del self[name]` (first binding). -/
def sdDelete : List (Rev × β) → Rev → List (Rev × β)
  | [], _ => []
  | kv :: rest, k => if kv.1 = k then rest else kv :: sdDelete rest k

/-- The eviction loop
`while len(self.__key_fifo) > self.__max_size:
self.__delitem__(self.__key_fifo.popleft())` (with an empty FIFO the
loop condition is already false). -/
def sdEvict (maxSize : Nat) : List (Rev × β) → List Rev → List (Rev × β) × List Rev
  | entries, [] => (entries, [])
  | entries, f :: rest =>
    if maxSize < rest.length + 1 then sdEvict maxSize (sdDelete entries f) rest
    else (entries, f :: rest)

/-- `SizedDict.__setitem__`: append the key to the FIFO only when new,
store the value, then evict from the front while over capacity. -/
def sdSetItem (d : SizedDict β) (k : Rev) (v : β) : SizedDict β :=
  let fifo := if sdContains d k then d.keyFifo else d.keyFifo ++ [k]
  let entries := sdStore d.entries k v
  let ev := sdEvict d.maxSize entries fifo
  ⟨d.maxSize, ev.1, ev.2⟩

/-- What one invocation of the query layer fetched from the external
tool: number of reference listings (`show-ref`) and of ancestry listings
(`rev-list --parents --topo-order --all`). -/
structure Fetches where
  refsFetches : Nat
  ancestryFetches : Nat
deriving Repr, DecidableEq

/-- The repository as seen through the external tool while it does not
change: the reference listing and the ancestry listing it would emit. -/
structure World where
  refs : RefsDict
  revList : List (Rev × List Rev)

/-- The mutable cache state of a `Storage` facade: the current snapshot
and the `__rev_cache_refresh` flag (true initially and after
`invalidate_rev_cache`). -/
structure StorageSt where
  revCache : RevCache
  refreshFlag : Bool

/-- Python dict equality (`!=` on dicts) on the reference table. -/
def refsDictEq (a b : RefsDict) : Bool :=
  a.all (fun kv => refsFind b kv.1 == some kv.2) &&
    b.all (fun kv => refsFind a kv.1 == some kv.2)

/-- `Storage._refresh_rev_cache(force)` under the cache lock: when forced
or flagged, clear the flag, fetch the reference listing, and rebuild from
a fresh ancestry listing only if the references differ from the current
snapshot's. Returns the new state, the fetch counts and the `refreshed`
flag. -/
def refreshRevCache (w : World) (force : Bool) (st : StorageSt) : StorageSt × Fetches × Bool :=
  if force || st.refreshFlag then
    let refs := w.refs
    if ¬ (refsDictEq st.revCache.refs_dict refs) then
      (⟨buildRevCache refs w.revList, false⟩, ⟨1, 1⟩, true)
    else
      (⟨st.revCache, false⟩, ⟨1, 0⟩, false)
  else (st, ⟨0, 0⟩, false)

/-- The `rev_cache` property: refresh (not forced), then return the
snapshot. -/
def revCacheGet (w : World) (st : StorageSt) : RevCache × StorageSt × Fetches :=
  let r := refreshRevCache w false st
  (r.1.revCache, r.1, r.2.1)

/-- `Storage.sync()`: a forced refresh. -/
def syncSt (w : World) (st : StorageSt) : StorageSt × Fetches × Bool :=
  refreshRevCache w true st

/-- `Storage.invalidate_rev_cache()`. -/
def invalidateRevCache (st : StorageSt) : StorageSt :=
  ⟨st.revCache, true⟩

/-- Whitespace for Python `bytes.split()` (no arguments). -/
def isWS (c : Char) : Bool :=
  (c = ' ') || (c = '\n') || (c = '\t') || (c = '\r')

/-- `readline()` on a buffered stream: everything up to and including the
first newline (or the whole buffer at end of stream), plus the rest. -/
def readLine : List Char → List Char × List Char
  | [] => ([], [])
  | c :: rest =>
    if c = '\n' then ([c], rest)
    else
      let r := readLine rest
      (c :: r.1, r.2)

/-- Helper of `splitWS` accumulating the current word (reversed). -/
def splitWSGo : List Char → List Char → List (List Char)
  | acc, [] => if acc = [] then [] else [acc.reverse]
  | acc, c :: rest =>
    if isWS c then
      if acc = [] then splitWSGo [] rest
      else acc.reverse :: splitWSGo [] rest
    else splitWSGo (c :: acc) rest

/-- Python `split()` with no separator: split on whitespace runs,
dropping empty fields. -/
def splitWS (s : List Char) : List (List Char) :=
  splitWSGo [] s

/-- `int(s)` on a decimal field: digits only, otherwise the ValueError
case (modelled as `none`). -/
def parseNatDigits (s : List Char) : Option Nat :=
  if s ≠ [] ∧ s.all (fun c => ('0' ≤ c) && (c ≤ '9')) then
    some (s.foldl (fun a c => a * 10 + (c.toNat - Char.toNat '0')) 0)
  else none

/-- The state of the persistent `cat-file --batch` pipe: the bytes its
stdout still holds for us. -/
structure CatPipe where
  buf : List Char
deriving Repr, DecidableEq

/-- `__cat_file_pipe`: at most one open pipe. -/
structure CatSt where
  pipe : Option CatPipe
deriving Repr, DecidableEq

/-- The protocol failures of the `try` body of `Storage.cat_file`. -/
inductive CatErr where
  | splitErr
  | kindErr
  | intErr
deriving Repr, DecidableEq

instance instExceptDecEq {ε α : Type} [DecidableEq ε] [DecidableEq α] :
    DecidableEq (Except ε α) :=
  fun a b =>
    match a, b with
    | .ok x, .ok y =>
      if h : x = y then isTrue (by rw [h])
      else isFalse (by intro he; cases he; exact h rfl)
    | .error x, .error y =>
      if h : x = y then isTrue (by rw [h])
      else isFalse (by intro he; cases he; exact h rfl)
    | .ok _, .error _ => isFalse (by intro he; cases he)
    | .error _, .ok _ => isFalse (by intro he; cases he)

/-- The `try` body of `Storage.cat_file` on the current stdout buffer:
read the header line, split it, check the field count and the declared
type, parse the size, and consume `size + 1` bytes keeping `size` (the
header line read once by `readline()` is referred to through the pure
`readLine` of the same buffer). -/
def catFileBody (kind : List Char) (buf : List Char) : Except CatErr (List Char × List Char) :=
  match splitWS (readLine buf).1 with
  | [_sha, ty, sz] =>
    if ¬ (ty = kind) then .error .kindErr
    else
      match parseNatDigits sz with
      | none => .error .intErr
      | some size =>
        .ok (((readLine buf).2.take (size + 1)).take size, (readLine buf).2.drop (size + 1))
  | _ => .error .splitErr

/-- `Storage.cat_file(kind, sha)` against a responder (the subprocess):
establish the pipe if absent (a fresh pipe has an empty stdout buffer),
write the request (the responder appends its response to the pipe's
stdout), run the protocol body; on any exception the `except:` clause
tears the pipe down and the method falls off the end, returning Python
None. -/
def catFile (responder : List Char → List Char) (kind sha : List Char)
    (st : CatSt) : Option (List Char) × CatSt :=
  match catFileBody kind ((st.pipe.getD ⟨[]⟩).buf ++ responder sha) with
  | .ok pr => (some pr.1, ⟨some ⟨pr.2⟩⟩)
  | .error _ => (none, ⟨none⟩)

/-- Split at every newline, keeping all pieces (so a trailing newline
yields a trailing empty piece). -/
def splitNL : List Char → List (List Char)
  | [] => [[]]
  | c :: rest =>
    if c = '\n' then [] :: splitNL rest
    else
      match splitNL rest with
      | [] => [[c]]
      | p :: ps => (c :: p) :: ps

/-- Python `str.splitlines()` for newline-separated text: like `splitNL`
but without a trailing empty piece, and empty text has no lines. -/
def splitLines (s : Str) : List Str :=
  if s = [] then []
  else
    let ps := splitNL s
    if ps.getLast? = some [] then ps.dropLast else ps

/-- `'\n'.join(lines)`. -/
def joinNL (lines : List Str) : Str :=
  List.intercalate ['\n'] lines

/-- Python `str.strip()`: drop whitespace at both ends. -/
def stripWS (s : Str) : Str :=
  ((s.dropWhile isWS).reverse.dropWhile isWS).reverse

/-- Python `line.split(None, 1)` unpacked into two parts: first
whitespace-delimited token and the remainder after the following
whitespace run; fewer than two parts is the ValueError case. -/
def splitOnce (s : Str) : Option (Str × Str) :=
  let s1 := s.dropWhile isWS
  let tok := s1.takeWhile (fun c => ¬ (isWS c = true))
  let rest := (s1.dropWhile (fun c => ¬ (isWS c = true))).dropWhile isWS
  if tok = [] ∨ rest = [] then none else some (tok, rest)

/-- Failure modes of `parse_commit` (the sha error for empty input, plus
the crashes an ill-formed commit text would cause in the source). -/
inductive ParseErr where
  | shaErr
  | nameErr
  | keyErr
  | idxErr
  | valueErr
deriving Repr, DecidableEq

/-- The parsed headers: key -> ordered list of values. -/
abbrev Props := List (Str × List Str)

/-- Header lookup `props[key]`. -/
def propsLookup (props : Props) (k : Str) : Option (List Str) :=
  (props.find? (fun kv => kv.1 == k)).map (fun kv => kv.2)

/-- `props.setdefault(key, []).append(value)`: append to the key's value
list, creating the key at the end on first sight. -/
def propsAppend : Props → Str → Str → Props
  | [], k, v => [(k, [v])]
  | kv :: rest, k, v =>
    if kv.1 = k then (k, kv.2 ++ [v]) :: rest else kv :: propsAppend rest k v

/-- `props[key][-1] = v`: replace the last element of the key's value
list. -/
def propsSetLast : Props → Str → Str → Props
  | [], _, _ => []
  | kv :: rest, k, v =>
    if kv.1 = k then (k, kv.2.dropLast ++ [v]) :: rest
    else kv :: propsSetLast rest k v

/-- The `while line:` loop of `parse_commit`, carrying the current `key`,
`multiline_key`, `multiline` accumulator and `props`; each iteration
consumes `line` and pops the next line. -/
def parseGo (key mlKey : Option Str) (ml : Option (List Str)) (props : Props)
    (line : Str) (lines : List Str) : Except ParseErr (Str × Props) :=
  match line with
  | [] => .ok (joinNL lines, props)
  | c :: lrest =>
    let step1 : Except ParseErr (Option Str × Option Str × Option (List Str) × Props) :=
      if c = ' ' then
        match ml with
        | some mlAcc => .ok (key, mlKey, some (mlAcc ++ [lrest]), props)
        | none =>
          match key with
          | none => .error .nameErr
          | some k =>
            match propsLookup props k with
            | none => .error .keyErr
            | some vs =>
              match vs.getLast? with
              | none => .error .idxErr
              | some lastv => .ok (key, some k, some [lastv, lrest], props)
      else
        match splitOnce line with
        | none => .error .valueErr
        | some kv => .ok (some kv.1, mlKey, ml, propsAppend props kv.1 (stripWS kv.2))
    match step1 with
    | .error e => .error e
    | .ok st1 =>
      let key1 := st1.1
      let mlKey1 := st1.2.1
      let ml1 := st1.2.2.1
      let props1 := st1.2.2.2
      match lines with
      | [] => .error .idxErr
      | next :: rest =>
        match ml1 with
        | some acc =>
          if next = [] ∨ ¬ (key1 = mlKey1) then
            match mlKey1 with
            | none => .error .keyErr
            | some mk => parseGo key1 mlKey1 none (propsSetLast props1 mk (joinNL acc)) next rest
          else parseGo key1 mlKey1 ml1 props1 next rest
        | none => parseGo key1 mlKey1 none props1 next rest

/-- `parse_commit(raw)`: empty input is the sha error; otherwise split
into lines and run the header loop, returning the commit message and the
headers. -/
def parseCommit (raw : Str) : Except ParseErr (Str × Props) :=
  if raw = [] then .error .shaErr
  else
    match splitLines raw with
    | [] => .error .shaErr
    | line :: lines => parseGo none none none [] line lines

/-- The commit-metadata subsystem state: the store of header value-list
cells (each Python list object is one cell) and the bounded FIFO cache
mapping a revision to its message and headers, a header value being a
reference into the store. -/
structure MsgSt where
  store : List (List Str)
  cache : SizedDict (Str × List (Str × Nat))
deriving DecidableEq

/-- Turn pure parsed headers into store cells: each value list becomes a
fresh cell, the headers keep only the cell references. -/
def allocProps (store : List (List Str)) : Props → List (List Str) × List (Str × Nat)
  | [] => (store, [])
  | kv :: rest =>
    let r := allocProps (store ++ [kv.2]) rest
    (r.1, (kv.1, store.length) :: r.2)

/-- The cache section of `Storage.read_commit` (everything under
`__commit_msg_lock`; canonicalisation via `fullrev` and the `rev_dict`
membership test happen before it and are outside this model).  On a hit,
return the message and a fresh top-level dict `dict(result[1])` that
shares the value cells with the cached entry; on a miss, `raw` is the
`cat_file` result (`None` or empty raises the sha error), which is
parsed, cached and returned the same way. -/
def readCommit (raw : Option Str) (st : MsgSt) (rev : Rev) :
    Except ParseErr ((Str × List (Str × Nat)) × MsgSt) :=
  match sdGet st.cache rev with
  | some entry => .ok ((entry.1, entry.2), st)
  | none =>
    match raw with
    | none => .error .shaErr
    | some r =>
      if r = [] then .error .shaErr
      else
        match parseCommit r with
        | .error e => .error e
        | .ok mp =>
          let ap := allocProps st.store mp.2
          let entry := (mp.1, ap.2)
          .ok ((entry.1, entry.2), ⟨ap.1, sdSetItem st.cache rev entry⟩)

/-- What a later reader of the cache observes for a header set: each cell
reference resolved against the store. -/
def derefProps (store : List (List Str)) (props : List (Str × Nat)) : Props :=
  props.map (fun kv => (kv.1, store.getD kv.2 []))

instance : DecidableEq (Except ParseErr ((Str × List (Str × Nat)) × MsgSt)) :=
  instExceptDecEq

/-- A caller mutating, in place, one header value list it received
(e.g. `result[1][key].append(x)`): the shared cell changes, the cache's
top-level mapping does not. -/
def mutateCell (st : MsgSt) (i : Nat) (f : List Str → List Str) : MsgSt :=
  ⟨st.store.set i (f (st.store.getD i [])), st.cache⟩

/-! ### Basic dictionary lemmas -/

theorem pairFind_cons_self {β : Type} (kv : Rev × β) (rest : List (Rev × β)) :
    List.find? (fun kv2 => kv2.1 == kv.1) (kv :: rest) = some kv :=
  @List.find?_cons_of_pos (Rev × β) (fun kv2 => kv2.1 == kv.1) kv rest
    (beq_iff_eq.mpr rfl)

theorem pairFind_cons_ne {β : Type} (kv : Rev × β) (rest : List (Rev × β)) {k : Rev}
    (h : ¬ (kv.1 = k)) :
    List.find? (fun kv2 => kv2.1 == k) (kv :: rest) =
      List.find? (fun kv2 => kv2.1 == k) rest :=
  @List.find?_cons_of_neg (Rev × β) (fun kv2 => kv2.1 == k) kv rest
    (fun hb => h (beq_iff_eq.mp hb))

theorem dbFind_cons_self {kv : Rev × RevEntry} {rest : RevDb} :
    dbFind (kv :: rest) kv.1 = some kv.2 := by
  unfold dbFind
  rw [pairFind_cons_self kv rest]
  rfl

theorem dbFind_cons_ne {kv : Rev × RevEntry} {rest : RevDb} {k : Rev}
    (h : ¬ (kv.1 = k)) : dbFind (kv :: rest) k = dbFind rest k := by
  unfold dbFind
  rw [pairFind_cons_ne kv rest h]

theorem dbFind_dbSet_self (db : RevDb) (k : Rev) (v : RevEntry) :
    dbFind (dbSet db k v) k = some v := by
  induction db with
  | nil =>
    show dbFind [(k, v)] k = some v
    exact dbFind_cons_self
  | cons kv rest ih =>
    by_cases h : kv.1 = k
    · show dbFind (if kv.1 = k then (k, v) :: rest else kv :: dbSet rest k v) k = some v
      rw [if_pos h]
      exact dbFind_cons_self
    · show dbFind (if kv.1 = k then (k, v) :: rest else kv :: dbSet rest k v) k = some v
      rw [if_neg h, dbFind_cons_ne h]
      exact ih

theorem dbFind_dbSet_ne (db : RevDb) (k k2 : Rev) (v : RevEntry) (h : ¬ (k2 = k)) :
    dbFind (dbSet db k v) k2 = dbFind db k2 := by
  induction db with
  | nil =>
    show dbFind [(k, v)] k2 = dbFind [] k2
    rw [dbFind_cons_ne (fun he => h he.symm)]
  | cons kv rest ih =>
    show dbFind (if kv.1 = k then (k, v) :: rest else kv :: dbSet rest k v) k2 = _
    by_cases hk : kv.1 = k
    · have hne2 : ¬ ((k, v) : Rev × RevEntry).1 = k2 := fun he => h he.symm
      have hne3 : ¬ (kv.1 = k2) := fun he => h (by rw [← he, hk])
      rw [if_pos hk, dbFind_cons_ne hne2, dbFind_cons_ne hne3]
    · rw [if_neg hk]
      by_cases hk2 : kv.1 = k2
      · rw [← hk2, dbFind_cons_self, dbFind_cons_self]
      · rw [dbFind_cons_ne hk2, dbFind_cons_ne hk2]
        exact ih

theorem dbFind_some_mem {db : RevDb} {k : Rev} {v : RevEntry}
    (h : dbFind db k = some v) : (k, v) ∈ db := by
  unfold dbFind at h
  obtain ⟨kv, hfind, hv⟩ := Option.map_eq_some'.mp h
  have hp := @List.find?_some (Rev × RevEntry) (fun kv2 => kv2.1 == k) kv db hfind
  have hk : kv.1 = k := beq_iff_eq.mp hp
  have hm := List.mem_of_find?_eq_some hfind
  have hkv : kv = (k, v) := by
    cases kv
    simp only at hk hv
    rw [hk, hv]
  rwa [hkv] at hm

theorem dbFind_isSome_iff_mem {db : RevDb} {k : Rev} :
    (dbFind db k).isSome = true ↔ k ∈ dbKeys db := by
  unfold dbFind dbKeys
  rw [Option.isSome_map', List.find?_isSome]
  constructor
  · rintro ⟨kv, hm, hp⟩
    have hk : kv.1 = k := beq_iff_eq.mp hp
    rw [← hk]
    exact List.mem_map_of_mem _ hm
  · intro hm
    obtain ⟨kv, hkv, hk⟩ := List.mem_map.mp hm
    exact ⟨kv, hkv, beq_iff_eq.mpr hk⟩

theorem dbFind_of_mem_nodup {db : RevDb} {kv : Rev × RevEntry}
    (hnd : (dbKeys db).Nodup) (hm : kv ∈ db) : dbFind db kv.1 = some kv.2 := by
  induction db with
  | nil => cases hm
  | cons hd tl ih =>
    rcases List.mem_cons.mp hm with h | h
    · rw [h]
      exact dbFind_cons_self
    · have hne : ¬ (hd.1 = kv.1) := by
        intro he
        have hmem : kv.1 ∈ dbKeys tl := List.mem_map_of_mem _ h
        have hnd2 : ¬ (hd.1 ∈ dbKeys tl) := (List.nodup_cons.mp hnd).1
        rw [he] at hnd2
        exact hnd2 hmem
      rw [dbFind_cons_ne hne]
      exact ih (List.nodup_cons.mp hnd).2 h

/-! ### SizedDict lemmas and claim C8 -/

theorem sdStore_find_self {β : Type} (l : List (Rev × β)) (k : Rev) (v : β) :
    ((sdStore l k v).find? (fun kv => kv.1 == k)).map (fun kv => kv.2) = some v := by
  induction l with
  | nil =>
    show (List.find? (fun kv => kv.1 == k) [(k, v)]).map _ = some v
    rw [pairFind_cons_self (k, v) []]
    rfl
  | cons kv rest ih =>
    show ((if kv.1 = k then (k, v) :: rest else kv :: sdStore rest k v).find?
        (fun kv => kv.1 == k)).map _ = some v
    by_cases h : kv.1 = k
    · rw [if_pos h, pairFind_cons_self (k, v) rest]
      rfl
    · rw [if_neg h, pairFind_cons_ne kv (sdStore rest k v) h]
      exact ih

theorem sdStore_find_ne {β : Type} (l : List (Rev × β)) (k k2 : Rev) (v : β)
    (h : ¬ (k2 = k)) :
    (sdStore l k v).find? (fun kv => kv.1 == k2) = l.find? (fun kv => kv.1 == k2) := by
  induction l with
  | nil =>
    show List.find? (fun kv => kv.1 == k2) [(k, v)] = List.find? _ []
    exact pairFind_cons_ne (k, v) [] (fun he => h he.symm)
  | cons kv rest ih =>
    show (if kv.1 = k then (k, v) :: rest else kv :: sdStore rest k v).find?
        (fun kv => kv.1 == k2) = _
    by_cases hk : kv.1 = k
    · have hne3 : ¬ (kv.1 = k2) := fun he => h (by rw [← he, hk])
      rw [if_pos hk, pairFind_cons_ne (k, v) rest (fun he => h he.symm),
        pairFind_cons_ne kv rest hne3]
    · rw [if_neg hk]
      by_cases hk2 : kv.1 = k2
      · have e1 := pairFind_cons_self kv (sdStore rest k v)
        have e2 := pairFind_cons_self kv rest
        rw [hk2] at e1 e2
        rw [e1, e2]
      · rw [pairFind_cons_ne kv (sdStore rest k v) hk2, pairFind_cons_ne kv rest hk2]
        exact ih

theorem sdEvict_no_evict {β : Type} (maxSize : Nat) (entries : List (Rev × β))
    (fifo : List Rev) (h : fifo.length ≤ maxSize) :
    sdEvict maxSize entries fifo = (entries, fifo) := by
  cases fifo with
  | nil => rfl
  | cons f rest =>
    show (if maxSize < rest.length + 1 then _ else (entries, f :: rest)) = _
    rw [if_neg (Nat.not_lt.mpr (by simpa using h))]

/-- The insert-a-b-c-into-capacity-2 experiment of the spec. -/
def sdABC : SizedDict Nat :=
  sdSetItem (sdSetItem (sdSetItem (SizedDict.mk0 Nat 2) ['a'] 1) ['b'] 2) ['c'] 3

/-- Claim C8: for a bounded FIFO cache of capacity 2, inserting keys a, b,
c in order leaves exactly the keys b and c (a evicted as oldest), and for
every cache state within capacity, re-setting a present key updates its
value in place without changing the FIFO order or evicting anything, so
re-inserting b afterwards does not evict c. -/
theorem claim_c8 {β : Type} (d : SizedDict β) (k : Rev) (v : β)
    (hmem : sdContains d k = true) (hinv : d.keyFifo.length ≤ d.maxSize) :
    ((sdSetItem d k v).keyFifo = d.keyFifo ∧
      (sdSetItem d k v).maxSize = d.maxSize ∧
      sdGet (sdSetItem d k v) k = some v ∧
      (∀ k2, ¬ (k2 = k) → sdGet (sdSetItem d k v) k2 = sdGet d k2)) ∧
    (sdABC.entries = [(['b'], 2), (['c'], 3)] ∧ sdABC.keyFifo = [['b'], ['c']] ∧
      sdSetItem sdABC ['b'] 9 =
        { maxSize := 2, entries := [(['b'], 9), (['c'], 3)], keyFifo := [['b'], ['c']] }) := by
  constructor
  · have hset : sdSetItem d k v =
        ⟨d.maxSize, sdStore d.entries k v, d.keyFifo⟩ := by
      unfold sdSetItem
      simp only [hmem, if_pos]
      rw [sdEvict_no_evict _ _ _ hinv]
    refine ⟨by rw [hset], by rw [hset], ?_, ?_⟩
    · rw [hset]
      unfold sdGet
      exact sdStore_find_self _ _ _
    · intro k2 hne
      rw [hset]
      unfold sdGet
      rw [sdStore_find_ne _ _ _ _ hne]
  · refine ⟨by decide, by decide, by decide⟩

/-- Witness for C8 at a concrete in-capacity cache. -/
theorem claim_c8_witness :
    (sdSetItem sdABC ['c'] 7).keyFifo = sdABC.keyFifo ∧
    sdGet (sdSetItem sdABC ['c'] 7) ['c'] = some 7 ∧
    sdGet (sdSetItem sdABC ['c'] 7) ['b'] = sdGet sdABC ['b'] := by
  have h := claim_c8 sdABC ['c'] 7 (by decide) (by decide)
  exact ⟨h.1.1, h.1.2.2.1, h.1.2.2.2 ['b'] (by decide)⟩

/-! ### Claim C10: children/parents of an unknown revision -/

/-- `Storage.children` through the facade: refresh (non-forced), then
query the snapshot. -/
def childrenSt (w : World) (st : StorageSt) (sha : Rev) : List Rev × StorageSt :=
  let r := revCacheGet w st
  (childrenQ r.1.rev_dict sha, r.2.1)

/-- `Storage.parents` through the facade. -/
def parentsSt (w : World) (st : StorageSt) (sha : Rev) : List Rev × StorageSt :=
  let r := revCacheGet w st
  (parentsQ r.1.rev_dict sha, r.2.1)

theorem revCacheGet_flag_false (w : World) (st : StorageSt)
    (h : st.refreshFlag = false) :
    revCacheGet w st = (st.revCache, st, ⟨0, 0⟩) := by
  unfold revCacheGet refreshRevCache
  simp [h]

/-- Claim C10: for an identifier that is not a key of the built cache's
graph, `children(sha)` and `parents(sha)` both return the empty list
(no not-found error is raised), and a facade whose cache is fresh is left
entirely unchanged by the two queries. -/
theorem claim_c10 (w : World) (st : StorageSt) (sha : Rev)
    (hflag : st.refreshFlag = false)
    (h : dbFind st.revCache.rev_dict sha = none) :
    childrenSt w st sha = ([], st) ∧ parentsSt w st sha = ([], st) := by
  unfold childrenSt parentsSt
  rw [revCacheGet_flag_false w st hflag]
  simp only []
  constructor
  · unfold childrenQ
    rw [h]
  · unfold parentsQ
    rw [h]

/-- Witness for C10 on a concrete fresh facade and unknown sha. -/
theorem claim_c10_witness :
    childrenSt ⟨[], []⟩ ⟨RevCache.empty, false⟩ ['z'] = ([], ⟨RevCache.empty, false⟩) ∧
    parentsSt ⟨[], []⟩ ⟨RevCache.empty, false⟩ ['z'] = ([], ⟨RevCache.empty, false⟩) :=
  claim_c10 ⟨[], []⟩ ⟨RevCache.empty, false⟩ ['z'] (by decide) (by decide)

/-! ### Claim C6: refresh skip -/

/-- A one-commit repository world for the refresh experiments. -/
def exWorld : World :=
  ⟨[("refs/heads/master".data, "aaaa".data)], [("aaaa".data, [])]⟩

/-- A facade state whose snapshot was just built from `exWorld` and whose
refresh flag is clear. -/
def exStFresh : StorageSt :=
  ⟨buildRevCache exWorld.refs exWorld.revList, false⟩

/-- Counterexample to C6 as stated: with no repository change, the second
`rev_cache` access performs zero reference-listing fetches (the refresh
flag was cleared by the first), not exactly one as claimed. -/
theorem claim_c6_counterexample :
    (revCacheGet exWorld (revCacheGet exWorld ⟨RevCache.empty, true⟩).2.1).2.2 =
      ⟨0, 0⟩ ∧
    ¬ ((revCacheGet exWorld (revCacheGet exWorld ⟨RevCache.empty, true⟩).2.1).2.2 =
      ⟨1, 0⟩) := by
  decide

/-- Claim C6 (amended): any `rev_cache` access leaves the refresh flag
clear, so the second of two accesses with no intervening invalidation
performs zero reference-listing and zero ancestry-listing fetches and
returns the unchanged snapshot; a forced refresh (`sync`) against
unchanged references performs exactly one reference-listing fetch, zero
ancestry-listing fetches, and does not rebuild. -/
theorem claim_c6 (w : World) (st : StorageSt) :
    ((revCacheGet w st).2.1.refreshFlag = false) ∧
    (st.refreshFlag = false → revCacheGet w st = (st.revCache, st, ⟨0, 0⟩)) ∧
    (refsDictEq st.revCache.refs_dict w.refs = true →
      syncSt w st = (⟨st.revCache, false⟩, ⟨1, 0⟩, false)) := by
  refine ⟨?_, fun h => revCacheGet_flag_false w st h, fun h => ?_⟩
  · unfold revCacheGet refreshRevCache
    cases hf : st.refreshFlag with
    | false => simp [hf]
    | true =>
      simp only [hf, Bool.or_true, if_pos]
      by_cases hd : refsDictEq st.revCache.refs_dict w.refs = true
      · simp [hd]
      · simp [hd]
  · unfold syncSt refreshRevCache
    simp [h]

/-- Witness for C6 on the concrete fresh facade. -/
theorem claim_c6_witness :
    revCacheGet exWorld exStFresh = (exStFresh.revCache, exStFresh, ⟨0, 0⟩) ∧
    syncSt exWorld exStFresh = (⟨exStFresh.revCache, false⟩, ⟨1, 0⟩, false) := by
  have h := claim_c6 exWorld exStFresh
  exact ⟨h.2.1 (by decide), h.2.2 (by decide)⟩

/-! ### Claim C9: branch containment -/

/-- Reachable-head revision of the C9 example. -/
def rr9 : Rev := "bbbb".data

/-- Branch name sorting first lexicographically. -/
def rnA9 : Str := "refs/heads/aa".data

/-- Branch name of the currently-checked-out branch (HEAD points here). -/
def rnZ9 : Str := "refs/heads/zz".data

/-- A cache where both branches contain `rr9` and HEAD is on `zz`. -/
def rc9 : RevCache :=
  ⟨some rr9, some rr9, [(rr9, ⟨[], [], 1, [rr9]⟩)],
    [(headKey, rnZ9), (rnZ9, rr9), (rnA9, rr9)], [(revKey rr9, [rr9])]⟩

/-- Counterexample to C9 as stated: `zz` is the currently-checked-out
branch and appears in the result, yet the result starts with `aa` — the
list is sorted lexicographically, not with the checked-out branch
first. -/
theorem claim_c9_counterexample :
    refsFind rc9.refs_dict headKey = some rnZ9 ∧
    ((rnZ9.drop 11, rr9) : Str × Rev) ∈ getBranchContainsResolve rc9 rr9 ∧
    ¬ ((getBranchContainsResolve rc9 rr9).head? = some (rnZ9.drop 11, rr9)) := by
  decide

/-- Claim C9 (amended): `get_branch_contains(sha, resolve=True)` returns
exactly the `(name, rev)` pairs of the branch entries whose revision is
in the sha's reachable-head set, sorted lexicographically by the pair
(the currently-checked-out branch receives no special position). -/
theorem claim_c9 (rc : RevCache) (sha : Rev) (e : RevEntry)
    (h : dbFind rc.rev_dict sha = some e) :
    List.Sorted pairLe (getBranchContainsResolve rc sha) ∧
    ∀ nr : Str × Rev, nr ∈ getBranchContainsResolve rc sha ↔
      ∃ hd, (nr.1, nr.2, hd) ∈ iterBranches rc ∧ nr.2 ∈ e.rheads := by
  have hred : getBranchContainsResolve rc sha =
      ((iterBranches rc).filterMap (fun t =>
        if t.2.1 ∈ e.rheads then some (t.1, t.2.1) else none)).insertionSort pairLe := by
    unfold getBranchContainsResolve
    rw [h]
  rw [hred]
  constructor
  · exact List.sorted_insertionSort pairLe _
  · intro nr
    rw [(List.perm_insertionSort pairLe _).mem_iff, List.mem_filterMap]
    constructor
    · rintro ⟨t, ht, hf⟩
      by_cases hm : t.2.1 ∈ e.rheads
      · rw [if_pos hm] at hf
        have hnr := Option.some.inj hf
        refine ⟨t.2.2, ?_, ?_⟩
        · rw [← hnr]
          exact ht
        · rw [← hnr]
          exact hm
      · rw [if_neg hm] at hf
        cases hf
    · rintro ⟨hd, hmem, hrh⟩
      refine ⟨(nr.1, nr.2, hd), hmem, ?_⟩
      rw [if_pos hrh]

/-- Witness for C9 on the concrete two-branch cache. -/
theorem claim_c9_witness :
    List.Sorted pairLe (getBranchContainsResolve rc9 rr9) ∧
    (((rnZ9.drop 11, rr9) : Str × Rev) ∈ getBranchContainsResolve rc9 rr9 ↔
      ∃ hd, ((rnZ9.drop 11 : Str), rr9, hd) ∈ iterBranches rc9 ∧
        rr9 ∈ (⟨[], [], 1, [rr9]⟩ : RevEntry).rheads) := by
  have h := claim_c9 rc9 rr9 ⟨[], [], 1, [rr9]⟩ (by decide)
  exact ⟨h.1, h.2 (rnZ9.drop 11, rr9)⟩

/-! ### Claim C5: batch pipe protocol errors -/

theorem readLine_append (a b : List Char) (h : ∀ c ∈ a, ¬ (c = '\n')) :
    readLine (a ++ '\n' :: b) = (a ++ ['\n'], b) := by
  induction a with
  | nil =>
    show readLine ('\n' :: b) = _
    unfold readLine
    rw [if_pos rfl]
    rfl
  | cons c rest ih =>
    have hc : ¬ (c = '\n') := h c (List.mem_cons_self c rest)
    show readLine (c :: (rest ++ '\n' :: b)) = _
    unfold readLine
    rw [if_neg hc, ih (fun x hx => h x (List.mem_cons_of_mem c hx))]
    rfl

theorem splitWSGo_nil_eq (acc : List Char) :
    splitWSGo acc [] = if acc = [] then [] else [acc.reverse] := rfl

theorem splitWSGo_cons_eq (acc : List Char) (c : Char) (rest : List Char) :
    splitWSGo acc (c :: rest) =
      if isWS c = true then
        (if acc = [] then splitWSGo [] rest else acc.reverse :: splitWSGo [] rest)
      else splitWSGo (c :: acc) rest := rfl

theorem splitWSGo_word (w : List Char) (hw : ∀ c ∈ w, isWS c = false) :
    ∀ acc rest, splitWSGo acc (w ++ rest) = splitWSGo (w.reverse ++ acc) rest := by
  induction w with
  | nil => intro acc rest; rfl
  | cons c cw ih =>
    intro acc rest
    have hc : ¬ (isWS c = true) := by
      rw [hw c (List.mem_cons_self c cw)]
      exact Bool.false_ne_true
    rw [List.cons_append, splitWSGo_cons_eq, if_neg hc,
      ih (fun x hx => hw x (List.mem_cons_of_mem c hx)) (c :: acc) rest,
      List.reverse_cons, List.append_assoc]
    rfl

theorem splitWSGo_ws_acc (c : Char) (hc : isWS c = true) (acc : List Char)
    (hacc : acc ≠ []) (rest : List Char) :
    splitWSGo acc (c :: rest) = acc.reverse :: splitWSGo [] rest := by
  rw [splitWSGo_cons_eq, if_pos hc, if_neg hacc]

theorem splitWSGo_last (acc : List Char) (hacc : acc ≠ []) :
    splitWSGo acc [] = [acc.reverse] := by
  rw [splitWSGo_nil_eq, if_neg hacc]

theorem splitWS_header (w1 w2 w3 : List Char)
    (h1 : w1 ≠ [] ∧ ∀ c ∈ w1, isWS c = false)
    (h2 : w2 ≠ [] ∧ ∀ c ∈ w2, isWS c = false)
    (h3 : w3 ≠ [] ∧ ∀ c ∈ w3, isWS c = false) :
    splitWS (w1 ++ ' ' :: (w2 ++ ' ' :: (w3 ++ ['\n']))) = [w1, w2, w3] := by
  have hrev : ∀ w : List Char, w ≠ [] → w.reverse ≠ [] := by
    intro w hw he
    exact hw (by simpa using congrArg List.reverse he)
  unfold splitWS
  rw [splitWSGo_word w1 h1.2, List.append_nil,
    splitWSGo_ws_acc ' ' (by decide) _ (hrev w1 h1.1),
    splitWSGo_word w2 h2.2, List.append_nil,
    splitWSGo_ws_acc ' ' (by decide) _ (hrev w2 h2.1),
    splitWSGo_word w3 h3.2, List.append_nil,
    splitWSGo_ws_acc '\n' (by decide) _ (hrev w3 h3.1),
    List.reverse_reverse, List.reverse_reverse, List.reverse_reverse]
  rfl

theorem parseNatDigits_some_facts {sz : List Char} {n : Nat}
    (h : parseNatDigits sz = some n) :
    sz ≠ [] ∧ ∀ c ∈ sz, (('0' ≤ c) && (c ≤ '9')) = true := by
  unfold parseNatDigits at h
  split at h
  case isTrue hcond =>
    exact ⟨hcond.1, fun c hc => List.all_eq_true.mp hcond.2 c hc⟩
  case isFalse hcond => cases h

theorem digit_not_ws {c : Char} (h : (('0' ≤ c) && (c ≤ '9')) = true) :
    isWS c = false := by
  have h0 : '0' ≤ c := of_decide_eq_true (Bool.and_elim_left h)
  by_cases e1 : c = ' '
  · rw [e1] at h0; exact absurd h0 (by decide)
  by_cases e2 : c = '\n'
  · rw [e2] at h0; exact absurd h0 (by decide)
  by_cases e3 : c = '\t'
  · rw [e3] at h0; exact absurd h0 (by decide)
  by_cases e4 : c = '\r'
  · rw [e4] at h0; exact absurd h0 (by decide)
  unfold isWS
  rw [decide_eq_false e1, decide_eq_false e2, decide_eq_false e3, decide_eq_false e4]
  rfl

theorem digit_not_nl {c : Char} (h : (('0' ≤ c) && (c ≤ '9')) = true) :
    ¬ (c = '\n') := by
  intro he
  have h0 : '0' ≤ c := of_decide_eq_true (Bool.and_elim_left h)
  rw [he] at h0
  exact absurd h0 (by decide)

theorem ws_false_not_nl {c : Char} (h : isWS c = false) : ¬ (c = '\n') := by
  intro he
  rw [he] at h
  exact absurd h (by decide)

/-- A well-formed batch response frame is parsed back into its payload,
consuming the whole frame. -/
theorem catFileBody_ok (kind shaF sz payload : List Char)
    (hsha : shaF ≠ [] ∧ ∀ c ∈ shaF, isWS c = false)
    (hkind : kind ≠ [] ∧ ∀ c ∈ kind, isWS c = false)
    (hsz : parseNatDigits sz = some payload.length) :
    catFileBody kind (shaF ++ ' ' :: (kind ++ ' ' :: (sz ++ '\n' :: (payload ++ ['\n'])))) =
      .ok (payload, []) := by
  obtain ⟨hsznil, hszdig⟩ := parseNatDigits_some_facts hsz
  have hbuf : shaF ++ ' ' :: (kind ++ ' ' :: (sz ++ '\n' :: (payload ++ ['\n']))) =
      (shaF ++ ' ' :: (kind ++ ' ' :: sz)) ++ '\n' :: (payload ++ ['\n']) := by
    simp [List.append_assoc]
  have hnl : ∀ c ∈ shaF ++ ' ' :: (kind ++ ' ' :: sz), ¬ (c = '\n') := by
    intro c hc
    rcases List.mem_append.mp hc with hc | hc
    · exact ws_false_not_nl (hsha.2 c hc)
    · rcases List.mem_cons.mp hc with hc | hc
      · rw [hc]; decide
      · rcases List.mem_append.mp hc with hc | hc
        · exact ws_false_not_nl (hkind.2 c hc)
        · rcases List.mem_cons.mp hc with hc | hc
          · rw [hc]; decide
          · exact digit_not_nl (hszdig c hc)
  have hline := readLine_append (shaF ++ ' ' :: (kind ++ ' ' :: sz))
    (payload ++ ['\n']) hnl
  have hsplit : splitWS ((shaF ++ ' ' :: (kind ++ ' ' :: sz)) ++ ['\n']) =
      [shaF, kind, sz] := by
    have := splitWS_header shaF kind sz hsha hkind
      ⟨hsznil, fun c hc => digit_not_ws (hszdig c hc)⟩
    simpa [List.append_assoc] using this
  have h1 : (payload ++ ['\n']).take (payload.length + 1) = payload ++ ['\n'] :=
    List.take_of_length_le (by simp)
  have htake : ((payload ++ ['\n']).take (payload.length + 1)).take payload.length =
      payload := by
    rw [h1]
    exact List.take_left payload ['\n']
  have hdrop : (payload ++ ['\n']).drop (payload.length + 1) = [] := by
    rw [List.drop_eq_nil_iff]
    simp
  unfold catFileBody
  rw [hbuf, hline]
  simp only [hsplit]
  rw [if_neg (show ¬ ¬ True from fun he => he trivial), hsz]
  show Except.ok (((payload ++ ['\n']).take (payload.length + 1)).take payload.length,
      (payload ++ ['\n']).drop (payload.length + 1)) = Except.ok (payload, [])
  rw [htake, hdrop]

/-- Claim C5 (amended): a batch response whose declared type differs from
the requested kind makes the protocol body fail, upon which `cat_file`
tears the pipe down and returns Python None to the caller (the error is
not re-raised); a subsequent request against a well-formed responder then
succeeds over a freshly established channel. -/
theorem claim_c5 (resp respG : List Char → List Char)
    (kind sha shaR ty sz shaG szG payload : List Char) (st : CatSt)
    (hsplit : splitWS (readLine ((st.pipe.getD ⟨[]⟩).buf ++ resp sha)).1 = [shaR, ty, sz])
    (hty : ¬ (ty = kind))
    (hgood : respG sha = shaG ++ ' ' :: (kind ++ ' ' :: (szG ++ '\n' :: (payload ++ ['\n']))))
    (hshaG : shaG ≠ [] ∧ ∀ c ∈ shaG, isWS c = false)
    (hkind : kind ≠ [] ∧ ∀ c ∈ kind, isWS c = false)
    (hszG : parseNatDigits szG = some payload.length) :
    catFile resp kind sha st = (none, ⟨none⟩) ∧
    catFile respG kind sha ⟨none⟩ = (some payload, ⟨some ⟨[]⟩⟩) := by
  constructor
  · have hbody : catFileBody kind ((st.pipe.getD ⟨[]⟩).buf ++ resp sha) =
        .error .kindErr := by
      unfold catFileBody
      rw [hsplit]
      simp only [if_pos hty]
    unfold catFile
    rw [hbody]
  · have hbody := catFileBody_ok kind shaG szG payload hshaG hkind hszG
    have hres : catFileBody kind
        (((⟨none⟩ : CatSt).pipe.getD ⟨[]⟩).buf ++ respG sha) = .ok (payload, []) := by
      rw [show ((⟨none⟩ : CatSt).pipe.getD ⟨[]⟩).buf ++ respG sha = respG sha from
        List.nil_append _, hgood]
      exact hbody
    unfold catFile
    rw [hres]

/-- A responder declaring the wrong object type. -/
def respBadEx (s : List Char) : List Char :=
  s ++ " blob 4\nabcd\n".data

/-- A responder declaring the requested type with a matching size. -/
def respGoodEx (s : List Char) : List Char :=
  s ++ " commit 4\nabcd\n".data

/-- Counterexample-style closed record for C5 as stated: the type
mismatch produces the internal protocol error, but the call itself
returns None (no exception escapes to the caller). -/
theorem claim_c5_counterexample :
    catFileBody "commit".data (respBadEx "a001".data) = .error .kindErr ∧
    catFile respBadEx "commit".data "a001".data ⟨none⟩ = (none, ⟨none⟩) := by
  decide

/-- Witness for C5: the torn-down call followed by a successful call over
a fresh channel, at concrete responders. -/
theorem claim_c5_witness :
    catFile respBadEx "commit".data "a001".data ⟨none⟩ = (none, ⟨none⟩) ∧
    catFile respGoodEx "commit".data "a001".data ⟨none⟩ =
      (some "abcd".data, ⟨some ⟨[]⟩⟩) := by
  have h := claim_c5 respBadEx respGoodEx "commit".data "a001".data
    "a001".data "blob".data "4".data "a001".data "4".data "abcd".data ⟨none⟩
    (by decide) (by decide) (by decide) (by decide) (by decide) (by decide)
  exact h

/-! ### Claim C3: relative history along the topological ordinal -/

/-- Chain revision a (ordinal 1, the youngest). -/
def chA : Rev := ['a']

/-- Chain revision b. -/
def chB : Rev := ['b']

/-- Chain revision c. -/
def chC : Rev := ['c']

/-- Chain revision d (ordinal 4, the oldest). -/
def chD : Rev := ['d']

/-- A linear chain a -> b -> c -> d along child edges, with the
emission-order ordinals 1..4. -/
def chainDb : RevDb :=
  [(chA, ⟨[chB], [], 1, []⟩), (chB, ⟨[chC], [chA], 2, []⟩),
   (chC, ⟨[chD], [chB], 3, []⟩), (chD, ⟨[], [chC], 4, []⟩)]

/-- Claim C3: over a cache whose ordinals are a permutation of 1..N,
`history_relative_rev` is the identity at offset 0, returns none for a
target ordinal outside 1..N, and moving +1 then -1 returns to the start
whenever both steps stay in range. -/
theorem claim_c3 (db : RevDb) (sha : Rev) (e : RevEntry)
    (hnd : (dbKeys db).Nodup)
    (hfind : dbFind db sha = some e)
    (hrange : ∀ kv ∈ db, 1 ≤ kv.2.ordNum ∧ kv.2.ordNum ≤ db.length)
    (hinj : ∀ kv ∈ db, ∀ kv2 ∈ db, kv.2.ordNum = kv2.2.ordNum → kv.1 = kv2.1)
    (htotal : ∀ n ∈ List.range db.length, ∃ kv ∈ db, kv.2.ordNum = n + 1) :
    (historyRelativeRev db sha 0 = .ok (some sha)) ∧
    (∀ off : Int, ((e.ordNum : Int) + off < 1 ∨ (e.ordNum : Int) + off > (db.length : Int)) →
      historyRelativeRev db sha off = .ok none) ∧
    (e.ordNum + 1 ≤ db.length →
      ∃ r2 e2, historyRelativeRev db sha 1 = .ok (some r2) ∧
        dbFind db r2 = some e2 ∧ e2.ordNum = e.ordNum + 1 ∧
        historyRelativeRev db r2 (-1) = .ok (some sha)) := by
  have hmem := dbFind_some_mem hfind
  have hrE : 1 ≤ e.ordNum ∧ e.ordNum ≤ db.length := hrange (sha, e) hmem
  refine ⟨?_, ?_, ?_⟩
  · simp [historyRelativeRev, hfind]
  · intro off hoff
    have hoffne : ¬ (off = (0 : Int)) := by
      intro he
      rw [he] at hoff
      rcases hrE with ⟨h1, h2⟩
      rcases hoff with h | h <;> omega
    simp only [historyRelativeRev, hfind]
    rw [if_neg hoffne, if_pos hoff]
  · intro hle
    have hlt : e.ordNum < db.length := by omega
    obtain ⟨kv, hkv, hord⟩ := htotal e.ordNum (List.mem_range.mpr hlt)
    have hsat : ((kv.2.ordNum : Int) == (e.ordNum : Int) + 1) = true := by
      rw [beq_iff_eq, hord]
      push_cast
      ring
    have hsome : (db.find? (fun kv2 => ((kv2.2.ordNum : Int) == (e.ordNum : Int) + 1))).isSome
        = true :=
      List.find?_isSome.mpr ⟨kv, hkv, hsat⟩
    obtain ⟨kv3, hkv3⟩ := Option.isSome_iff_exists.mp hsome
    have hkv3mem := List.mem_of_find?_eq_some hkv3
    have hkv3sat := List.find?_some hkv3
    have hkv3ord : kv3.2.ordNum = e.ordNum + 1 := by
      have := beq_iff_eq.mp hkv3sat
      omega
    have hfind3 : dbFind db kv3.1 = some kv3.2 := dbFind_of_mem_nodup hnd hkv3mem
    refine ⟨kv3.1, kv3.2, ?_, hfind3, hkv3ord, ?_⟩
    · simp only [historyRelativeRev, hfind]
      rw [if_neg (show ¬ ((1 : Int) = 0) by decide),
        if_neg (show ¬ ((e.ordNum : Int) + 1 < 1 ∨ (e.ordNum : Int) + 1 > (db.length : Int))
          by push_neg; constructor <;> omega)]
      rw [hkv3]
    · simp only [historyRelativeRev, hfind3]
      rw [if_neg (show ¬ ((-1 : Int) = 0) by decide),
        if_neg (show ¬ ((kv3.2.ordNum : Int) + (-1) < 1 ∨
            (kv3.2.ordNum : Int) + (-1) > (db.length : Int)) by push_neg; constructor <;> omega)]
      have hsat2 : ((e.ordNum : Int) == (kv3.2.ordNum : Int) + (-1)) = true := by
        rw [beq_iff_eq]
        omega
      have hsome2 : (db.find? (fun kv2 =>
          ((kv2.2.ordNum : Int) == (kv3.2.ordNum : Int) + (-1)))).isSome = true :=
        List.find?_isSome.mpr ⟨(sha, e), hmem, hsat2⟩
      obtain ⟨kv4, hkv4⟩ := Option.isSome_iff_exists.mp hsome2
      have hkv4mem := List.mem_of_find?_eq_some hkv4
      have hkv4sat := List.find?_some hkv4
      have hkv4ord : kv4.2.ordNum = e.ordNum := by
        have := beq_iff_eq.mp hkv4sat
        omega
      have hkey : kv4.1 = sha :=
        hinj _ hkv4mem (sha, e) hmem (by rw [hkv4ord])
      rw [hkv4]
      show Except.ok (some kv4.1) = Except.ok (some sha)
      rw [hkey]

/-- Witness for C3 on the four-revision chain. -/
theorem claim_c3_witness :
    (historyRelativeRev chainDb chB 0 = .ok (some chB)) ∧
    (historyRelativeRev chainDb chB (-2) = .ok none) ∧
    (∃ r2 e2, historyRelativeRev chainDb chB 1 = .ok (some r2) ∧
      dbFind chainDb r2 = some e2 ∧ e2.ordNum = 2 + 1 ∧
      historyRelativeRev chainDb r2 (-1) = .ok (some chB)) := by
  have h := claim_c3 chainDb chB ⟨[chC], [chA], 2, []⟩ (by decide) (by decide)
    (by decide) (by decide) (by decide)
  exact ⟨h.1, h.2.1 (-2) (by decide), h.2.2 (by decide)⟩

/-! ### Claim C7: read_commit returns a shallow copy -/

/-- Claim C7 (amended): on a cache hit, `read_commit` returns the cached
message with a fresh top-level headers dict and leaves the state
untouched; mutating the returned dict itself cannot reach the cache
(whose top-level mapping is unchanged by any cell mutation), but the
header value lists are shared cells, so an in-place append through the
returned structure is observed by the next `read_commit` of the same
revision. -/
theorem claim_c7 (st : MsgSt) (rev : Rev) (msg : Str) (props : List (Str × Nat))
    (k : Str) (i : Nat) (f : List Str → List Str)
    (hhit : sdGet st.cache rev = some (msg, props))
    (hki : (k, i) ∈ props) (hi : i < st.store.length) :
    readCommit none st rev = .ok ((msg, props), st) ∧
    (mutateCell st i f).cache = st.cache ∧
    (k, f (st.store.getD i [])) ∈ derefProps (mutateCell st i f).store props ∧
    readCommit none (mutateCell st i f) rev = .ok ((msg, props), mutateCell st i f) := by
  have hget : ((mutateCell st i f).store).getD i [] = f (st.store.getD i []) := by
    show (st.store.set i (f (st.store.getD i []))).getD i [] = _
    rw [List.getD_eq_getElem?_getD, List.getElem?_set_self hi]
    rfl
  refine ⟨?_, rfl, ?_, ?_⟩
  · unfold readCommit
    rw [hhit]
  · have hmap := List.mem_map_of_mem
      (fun kv : Str × Nat => (kv.1, ((mutateCell st i f).store).getD kv.2 [])) hki
    have himg : ((fun kv : Str × Nat => (kv.1, ((mutateCell st i f).store).getD kv.2 []))
        (k, i)) = (k, f (st.store.getD i [])) := by
      show (k, ((mutateCell st i f).store).getD i []) = _
      rw [hget]
    unfold derefProps
    rw [← himg]
    exact hmap
  · have hhit2 : sdGet (mutateCell st i f).cache rev = some (msg, props) := hhit
    unfold readCommit
    rw [hhit2]

/-- Raw commit text of the C7 experiment. -/
def rawC7 : Str := "tree 123\nparent abc\n\nhello".data

/-- The revision being read. -/
def revC7 : Rev := "cccc".data

/-- A fresh metadata subsystem (empty store, empty capacity-200 cache). -/
def mst200 : MsgSt := ⟨[], SizedDict.mk0 _ 200⟩

/-- The header cell references `read_commit` hands out for `rawC7`. -/
def propsC7 : List (Str × Nat) := [("tree".data, 0), ("parent".data, 1)]

/-- The state after the first (miss) read of `rawC7`. -/
def st1C7 : MsgSt :=
  ⟨[["123".data], ["abc".data]],
    sdSetItem (SizedDict.mk0 _ 200) revC7 ("hello".data, propsC7)⟩

/-- The state after the caller appends to the returned parent list. -/
def st2C7 : MsgSt := mutateCell st1C7 1 (fun vs => vs ++ ["xx".data])

/-- Counterexample to C7 as stated: the caller's in-place append to the
parent header list it received is visible in the next read of the same
revision — the cached entry does not keep the original parsed values. -/
theorem claim_c7_counterexample :
    readCommit (some rawC7) mst200 revC7 = .ok (("hello".data, propsC7), st1C7) ∧
    derefProps st1C7.store propsC7 =
      [("tree".data, ["123".data]), ("parent".data, ["abc".data])] ∧
    readCommit none st2C7 revC7 = .ok (("hello".data, propsC7), st2C7) ∧
    derefProps st2C7.store propsC7 =
      [("tree".data, ["123".data]), ("parent".data, ["abc".data, "xx".data])] := by
  decide

/-- Witness for C7 at the concrete post-read state. -/
theorem claim_c7_witness :
    readCommit none st1C7 revC7 = .ok (("hello".data, propsC7), st1C7) ∧
    (mutateCell st1C7 1 (fun vs => vs ++ ["xx".data])).cache = st1C7.cache ∧
    ("parent".data,
        (fun vs => vs ++ ["xx".data]) (st1C7.store.getD 1 [])) ∈
      derefProps (mutateCell st1C7 1 (fun vs => vs ++ ["xx".data])).store propsC7 ∧
    readCommit none (mutateCell st1C7 1 (fun vs => vs ++ ["xx".data])) revC7 =
      .ok (("hello".data, propsC7), mutateCell st1C7 1 (fun vs => vs ++ ["xx".data])) := by
  exact claim_c7 st1C7 revC7 "hello".data propsC7 "parent".data 1
    (fun vs => vs ++ ["xx".data]) (by decide) (by decide) (by decide)

/-! ### Claim C1: builder invariants -/

theorem listAdd_subset {xs : List Rev} {x y : Rev} (h : y ∈ listAdd xs x) :
    y ∈ xs ∨ y = x := by
  unfold listAdd at h
  by_cases hm : x ∈ xs
  · rw [if_pos hm] at h
    exact Or.inl h
  · rw [if_neg hm] at h
    rcases List.mem_append.mp h with h | h
    · exact Or.inl h
    · exact Or.inr (List.mem_singleton.mp h)

theorem updateParent_find_ne {rev : Rev} {rh : List Rev} {db : RevDb} {p x : Rev}
    (h : ¬ (x = p)) :
    dbFind (updateParent rev rh db p) x = dbFind db x := by
  unfold updateParent
  exact dbFind_dbSet_ne db p x _ h

theorem updateParent_preserves {rev : Rev} {rh : List Rev} {db : RevDb} {p x : Rev}
    {e : RevEntry} (h : dbFind db x = some e) :
    ∃ e2, dbFind (updateParent rev rh db p) x = some e2 ∧
      e2.ordNum = e.ordNum ∧ e2.parents = e.parents := by
  by_cases hx : x = p
  · subst hx
    unfold updateParent
    refine ⟨_, dbFind_dbSet_self db x _, ?_, ?_⟩ <;> (rw [h]; rfl)
  · exact ⟨e, by rw [updateParent_find_ne hx]; exact h, rfl, rfl⟩

theorem updateParent_new_keys {rev : Rev} {rh : List Rev} {db : RevDb} {p x : Rev}
    (h : (dbFind (updateParent rev rh db p) x).isSome = true) :
    (dbFind db x).isSome = true ∨ x = p := by
  by_cases hx : x = p
  · exact Or.inr hx
  · rw [updateParent_find_ne hx] at h
    exact Or.inl h

theorem foldUP_preserves (rev : Rev) (rh : List Rev) (ps : List Rev) :
    ∀ db x e, dbFind db x = some e →
      ∃ e2, dbFind (ps.foldl (updateParent rev rh) db) x = some e2 ∧
        e2.ordNum = e.ordNum ∧ e2.parents = e.parents := by
  induction ps with
  | nil => exact fun db x e h => ⟨e, h, rfl, rfl⟩
  | cons p ps ih =>
    intro db x e h
    obtain ⟨e2, h2, ho, hp⟩ := @updateParent_preserves rev rh db p x e h
    obtain ⟨e3, h3, ho2, hp2⟩ := ih (updateParent rev rh db p) x e2 h2
    exact ⟨e3, by rwa [List.foldl_cons], ho2.trans ho, hp2.trans hp⟩

theorem foldUP_new_keys (rev : Rev) (rh : List Rev) (ps : List Rev) :
    ∀ db x, (dbFind (ps.foldl (updateParent rev rh) db) x).isSome = true →
      (dbFind db x).isSome = true ∨ x ∈ ps := by
  induction ps with
  | nil => exact fun db x h => Or.inl h
  | cons p ps ih =>
    intro db x h
    rw [List.foldl_cons] at h
    rcases ih (updateParent rev rh db p) x h with h2 | h2
    · rcases updateParent_new_keys h2 with h3 | h3
      · exact Or.inl h3
      · exact Or.inr (h3 ▸ List.mem_cons_self p ps)
    · exact Or.inr (List.mem_cons_of_mem p h2)

/-- The reachable-heads set a line's finalized entry receives. -/
def lineRheads (headRevs : List Rev) (db : RevDb) (rev : Rev) : List Rev :=
  if rev ∈ headRevs then listAdd ((dbFind db rev).getD emptyEntry).rheads rev
  else ((dbFind db rev).getD emptyEntry).rheads

theorem buildLine_eq (headRevs : List Rev) (db : RevDb) (i : Nat)
    (line : Rev × List Rev) :
    buildLine headRevs db i line =
      line.2.foldl (updateParent line.1 (lineRheads headRevs db line.1))
        (dbSet db line.1 ⟨((dbFind db line.1).getD emptyEntry).children, line.2, i + 1,
          lineRheads headRevs db line.1⟩) := rfl

theorem buildLine_self (headRevs : List Rev) (db : RevDb) (i : Nat)
    (line : Rev × List Rev) :
    ∃ e2, dbFind (buildLine headRevs db i line) line.1 = some e2 ∧
      e2.ordNum = i + 1 ∧ e2.parents = line.2 := by
  rw [buildLine_eq]
  obtain ⟨e2, h2, ho, hp⟩ := foldUP_preserves line.1 _ line.2 _ line.1 _
    (dbFind_dbSet_self db line.1
      ⟨((dbFind db line.1).getD emptyEntry).children, line.2, i + 1,
        lineRheads headRevs db line.1⟩)
  exact ⟨e2, h2, ho, hp⟩

theorem buildLine_other_pres {headRevs : List Rev} {db : RevDb} {i : Nat}
    {line : Rev × List Rev} {x : Rev} {e : RevEntry}
    (hx : ¬ (x = line.1)) (h : dbFind db x = some e) :
    ∃ e2, dbFind (buildLine headRevs db i line) x = some e2 ∧
      e2.ordNum = e.ordNum ∧ e2.parents = e.parents := by
  rw [buildLine_eq]
  refine foldUP_preserves line.1 _ line.2 _ x e ?_
  rw [dbFind_dbSet_ne db line.1 x _ hx]
  exact h

theorem buildLine_new_keys {headRevs : List Rev} {db : RevDb} {i : Nat}
    {line : Rev × List Rev} {x : Rev}
    (h : (dbFind (buildLine headRevs db i line) x).isSome = true) :
    (dbFind db x).isSome = true ∨ x = line.1 ∨ x ∈ line.2 := by
  rw [buildLine_eq] at h
  rcases foldUP_new_keys line.1 _ line.2 _ x h with h2 | h2
  · by_cases hx : x = line.1
    · exact Or.inr (Or.inl hx)
    · rw [dbFind_dbSet_ne db line.1 x _ hx] at h2
      exact Or.inl h2
  · exact Or.inr (Or.inr h2)

theorem buildDbGo_pres (headRevs : List Rev) (rest : List (Rev × List Rev)) :
    ∀ i db x e, ¬ (x ∈ rest.map (fun l => l.1)) → dbFind db x = some e →
      ∃ e2, dbFind (buildDbGo headRevs rest i db) x = some e2 ∧
        e2.ordNum = e.ordNum ∧ e2.parents = e.parents := by
  induction rest with
  | nil => exact fun i db x e _ h => ⟨e, h, rfl, rfl⟩
  | cons line rest ih =>
    intro i db x e hx h
    have hx1 : ¬ (x = line.1) := by
      intro he
      apply hx
      rw [he]
      exact List.mem_map_of_mem (fun l => l.1) (List.mem_cons_self line rest)
    have hx2 : ¬ (x ∈ rest.map (fun l => l.1)) := by
      intro hm
      apply hx
      simp only [List.map_cons, List.mem_cons]
      exact Or.inr hm
    obtain ⟨e2, h2, ho, hp⟩ := buildLine_other_pres hx1 h
    obtain ⟨e3, h3, ho2, hp2⟩ := ih (i + 1) _ x e2 hx2 h2
    exact ⟨e3, h3, ho2.trans ho, hp2.trans hp⟩

theorem buildDbGo_new_keys (headRevs : List Rev) (rest : List (Rev × List Rev)) :
    ∀ i db x, (dbFind (buildDbGo headRevs rest i db) x).isSome = true →
      (dbFind db x).isSome = true ∨ ∃ l ∈ rest, x = l.1 ∨ x ∈ l.2 := by
  induction rest with
  | nil => exact fun i db x h => Or.inl h
  | cons line rest ih =>
    intro i db x h
    rcases ih (i + 1) _ x h with h2 | h2
    · rcases buildLine_new_keys h2 with h3 | h3
      · exact Or.inl h3
      · exact Or.inr ⟨line, List.mem_cons_self line rest, h3⟩
    · obtain ⟨l, hl, hx⟩ := h2
      exact Or.inr ⟨l, List.mem_cons_of_mem line hl, hx⟩

theorem buildDbGo_ord (headRevs : List Rev) (rest : List (Rev × List Rev)) :
    ∀ i db j (hj : j < rest.length), (rest.map (fun l => l.1)).Nodup →
      ∃ e, dbFind (buildDbGo headRevs rest i db) (rest.get ⟨j, hj⟩).1 = some e ∧
        e.ordNum = i + j + 1 := by
  induction rest with
  | nil =>
    intro i db j hj
    exact absurd hj (Nat.not_lt_zero j)
  | cons line rest ih =>
    intro i db j hj hnd
    have hnd2 : (line.1 :: rest.map (fun l => l.1)).Nodup := hnd
    cases j with
    | zero =>
      obtain ⟨e2, h2, ho, _⟩ := buildLine_self headRevs db i line
      have hnmem : ¬ (line.1 ∈ rest.map (fun l => l.1)) := (List.nodup_cons.mp hnd2).1
      obtain ⟨e3, h3, ho2, _⟩ := buildDbGo_pres headRevs rest (i + 1) _ line.1 e2 hnmem h2
      exact ⟨e3, h3, by omega⟩
    | succ j =>
      have hj2 : j < rest.length := by simpa using hj
      obtain ⟨e3, h3, ho⟩ := ih (i + 1) (buildLine headRevs db i line) j hj2
        (List.nodup_cons.mp hnd2).2
      exact ⟨e3, h3, by omega⟩

/-- Both edge lists of an entry point into `C`. -/
def entryClosed (C : List Rev) (e : RevEntry) : Prop :=
  (∀ c ∈ e.children, c ∈ C) ∧ (∀ p ∈ e.parents, p ∈ C)

theorem emptyEntry_closed (C : List Rev) : entryClosed C emptyEntry :=
  ⟨fun c hc => absurd hc (List.not_mem_nil c), fun p hp => absurd hp (List.not_mem_nil p)⟩

theorem getD_closed {C : List Rev} {db : RevDb} {x : Rev}
    (hdb : ∀ y e, dbFind db y = some e → entryClosed C e) :
    entryClosed C ((dbFind db x).getD emptyEntry) := by
  cases hf : dbFind db x with
  | none => exact emptyEntry_closed C
  | some e0 =>
    have := hdb x e0 hf
    simpa using this

theorem updateParent_closed {C : List Rev} {rev : Rev} {rh : List Rev} {db : RevDb}
    {p : Rev} (hrev : rev ∈ C)
    (hdb : ∀ y e, dbFind db y = some e → entryClosed C e) :
    ∀ x e, dbFind (updateParent rev rh db p) x = some e → entryClosed C e := by
  intro x e h
  by_cases hx : x = p
  · subst hx
    unfold updateParent at h
    rw [dbFind_dbSet_self] at h
    have hpe := @getD_closed C db x hdb
    injection h with h
    rw [← h]
    refine ⟨?_, hpe.2⟩
    intro c hc
    rcases listAdd_subset hc with hc | hc
    · exact hpe.1 c hc
    · exact hc ▸ hrev
  · rw [updateParent_find_ne hx] at h
    exact hdb x e h

theorem foldUP_closed {C : List Rev} (rev : Rev) (rh : List Rev) (ps : List Rev)
    (hrev : rev ∈ C) :
    ∀ db, (∀ y e, dbFind db y = some e → entryClosed C e) →
      ∀ x e, dbFind (ps.foldl (updateParent rev rh) db) x = some e → entryClosed C e := by
  induction ps with
  | nil => exact fun db hdb => hdb
  | cons p ps ih =>
    intro db hdb x e h
    rw [List.foldl_cons] at h
    exact ih (updateParent rev rh db p) (updateParent_closed hrev hdb) x e h

theorem buildLine_closed {C : List Rev} {headRevs : List Rev} {db : RevDb} {i : Nat}
    {line : Rev × List Rev} (hrev : line.1 ∈ C) (hps : ∀ p ∈ line.2, p ∈ C)
    (hdb : ∀ y e, dbFind db y = some e → entryClosed C e) :
    ∀ x e, dbFind (buildLine headRevs db i line) x = some e → entryClosed C e := by
  rw [buildLine_eq]
  refine foldUP_closed line.1 _ line.2 hrev _ ?_
  intro y e h
  by_cases hy : y = line.1
  · subst hy
    rw [dbFind_dbSet_self] at h
    have hpe := @getD_closed C db line.1 hdb
    injection h with h
    rw [← h]
    exact ⟨hpe.1, hps⟩
  · rw [dbFind_dbSet_ne db line.1 y _ hy] at h
    exact hdb y e h

theorem buildDbGo_closed {C : List Rev} (headRevs : List Rev)
    (rest : List (Rev × List Rev))
    (hlines : ∀ l ∈ rest, l.1 ∈ C ∧ ∀ p ∈ l.2, p ∈ C) :
    ∀ i db, (∀ y e, dbFind db y = some e → entryClosed C e) →
      ∀ x e, dbFind (buildDbGo headRevs rest i db) x = some e → entryClosed C e := by
  induction rest with
  | nil => exact fun i db hdb => hdb
  | cons line rest ih =>
    intro i db hdb x e h
    have hline := hlines line (List.mem_cons_self line rest)
    refine ih (fun l hl => hlines l (List.mem_cons_of_mem line hl)) (i + 1) _ ?_ x e h
    exact buildLine_closed hline.1 hline.2 hdb

/-- Claim C1: for a well-formed ancestry listing (no revision repeated as
a line head, every parent also a line head), the built `rev_dict` has
exactly the line heads as keys, every child or parent recorded in any
entry is itself a key, and the ordinals follow the emission order — the
j-th line's revision gets ordinal j+1 — so they form a dense permutation
of 1..N (each key's ordinal lies in 1..N and distinct keys have distinct
ordinals). -/
theorem claim_c1 (refs : RefsDict) (lines : List (Rev × List Rev))
    (hnd : (lines.map (fun l => l.1)).Nodup)
    (hcl : ∀ l ∈ lines, ∀ p ∈ l.2, p ∈ lines.map (fun l2 => l2.1)) :
    (∀ x, ((dbFind ((buildRevCache refs lines).rev_dict) x).isSome = true ↔
      x ∈ lines.map (fun l => l.1))) ∧
    (∀ x e, dbFind ((buildRevCache refs lines).rev_dict) x = some e →
      (∀ c ∈ e.children,
        (dbFind ((buildRevCache refs lines).rev_dict) c).isSome = true) ∧
      (∀ p ∈ e.parents,
        (dbFind ((buildRevCache refs lines).rev_dict) p).isSome = true)) ∧
    (∀ j (hj : j < lines.length), ∃ e,
      dbFind ((buildRevCache refs lines).rev_dict) (lines.get ⟨j, hj⟩).1 = some e ∧
      e.ordNum = j + 1) ∧
    (∀ x e, dbFind ((buildRevCache refs lines).rev_dict) x = some e →
      1 ≤ e.ordNum ∧ e.ordNum ≤ lines.length) ∧
    (∀ x y ex ey, dbFind ((buildRevCache refs lines).rev_dict) x = some ex →
      dbFind ((buildRevCache refs lines).rev_dict) y = some ey →
      ex.ordNum = ey.ordNum → x = y) := by
  have hdb : (buildRevCache refs lines).rev_dict =
      buildDbGo (headRevsOf refs) lines 0 [] := rfl
  have hord : ∀ j (hj : j < lines.length), ∃ e,
      dbFind ((buildRevCache refs lines).rev_dict) (lines.get ⟨j, hj⟩).1 = some e ∧
      e.ordNum = j + 1 := by
    intro j hj
    rw [hdb]
    obtain ⟨e, he, ho⟩ := buildDbGo_ord (headRevsOf refs) lines 0 [] j hj hnd
    exact ⟨e, he, by omega⟩
  have hkeys : ∀ x, ((dbFind ((buildRevCache refs lines).rev_dict) x).isSome = true ↔
      x ∈ lines.map (fun l => l.1)) := by
    intro x
    constructor
    · intro h
      rw [hdb] at h
      rcases buildDbGo_new_keys (headRevsOf refs) lines 0 [] x h with h2 | h2
      · cases h2
      · obtain ⟨l, hl, hx⟩ := h2
        rcases hx with hx | hx
        · rw [hx]
          exact List.mem_map_of_mem _ hl
        · exact hcl l hl x hx
    · intro h
      obtain ⟨l, hl, hlx⟩ := List.mem_map.mp h
      obtain ⟨n, hn⟩ := List.mem_iff_get.mp hl
      obtain ⟨e, he, _⟩ := hord n.1 n.2
      have : lines.get ⟨n.1, n.2⟩ = l := by
        cases n
        exact hn
      rw [this, hlx] at he
      rw [he]
      rfl
  have hfound : ∀ x e, dbFind ((buildRevCache refs lines).rev_dict) x = some e →
      ∃ (hj : _), (lines.get hj).1 = x ∧ e.ordNum = hj.1 + 1 := by
    intro x e h
    have hx : x ∈ lines.map (fun l => l.1) := (hkeys x).mp (by rw [h]; rfl)
    obtain ⟨l, hl, hlx⟩ := List.mem_map.mp hx
    obtain ⟨n, hn⟩ := List.mem_iff_get.mp hl
    obtain ⟨e2, he2, ho2⟩ := hord n.1 n.2
    have hget : (lines.get ⟨n.1, n.2⟩).1 = x := by
      cases n
      rw [hn, hlx]
    rw [hget] at he2
    rw [h] at he2
    injection he2 with he2
    exact ⟨⟨n.1, n.2⟩, hget, by rw [← he2] at ho2; exact ho2⟩
  refine ⟨hkeys, ?_, hord, ?_, ?_⟩
  · intro x e h
    rw [hdb] at h
    have hclosed := buildDbGo_closed (headRevsOf refs) lines
      (fun l hl => ⟨List.mem_map_of_mem _ hl, hcl l hl⟩) 0 []
      (fun y e2 h2 => by cases h2) x e h
    exact ⟨fun c hc => (hkeys c).mpr (hclosed.1 c hc),
      fun p hp => (hkeys p).mpr (hclosed.2 p hp)⟩
  · intro x e h
    obtain ⟨hj, _, ho⟩ := hfound x e h
    have := hj.2
    omega
  · intro x y ex ey hx hy ho
    obtain ⟨jx, hgx, hox⟩ := hfound x ex hx
    obtain ⟨jy, hgy, hoy⟩ := hfound y ey hy
    have hxy : jx.1 = jy.1 := by omega
    have : jx = jy := Fin.ext hxy
    rw [← hgx, ← hgy, this]

/-- Ancestry lines of the C1 witness: b is the youngest, a its parent. -/
def c1Lines : List (Rev × List Rev) :=
  [("bbbb".data, ["aaaa".data]), ("aaaa".data, [])]

/-- Witness for C1 on the two-line listing. -/
theorem claim_c1_witness :
    ((dbFind ((buildRevCache exWorld.refs c1Lines).rev_dict) "aaaa".data).isSome = true ↔
      "aaaa".data ∈ c1Lines.map (fun l => l.1)) ∧
    (∃ e, dbFind ((buildRevCache exWorld.refs c1Lines).rev_dict)
        (c1Lines.get ⟨0, by decide⟩).1 = some e ∧ e.ordNum = 0 + 1) := by
  have h := claim_c1 exWorld.refs c1Lines (by decide) (by decide)
  exact ⟨h.1 "aaaa".data, h.2.2.1 0 (by decide)⟩

/-! ### Claim C2: shorten/lengthen round trip -/

theorem shortrevGo_spec (rev : Rev) (crevs : List Rev) :
    ∀ fuel l, shortrevGo rev crevs l fuel = rev ∨
      ∃ m, l ≤ m ∧ m < l + fuel ∧ shortrevGo rev crevs l fuel = rev.take m ∧
        ∀ r ∈ crevs, ¬ (r.take m = rev.take m) := by
  intro fuel
  induction fuel with
  | zero => exact fun l => Or.inl rfl
  | succ fuel ih =>
    intro l
    have hstep : shortrevGo rev crevs l (fuel + 1) =
        if crevs.all (fun r => ¬ (r.take l = rev.take l)) then rev.take l
        else shortrevGo rev crevs (l + 1) fuel := rfl
    rw [hstep]
    by_cases hall : crevs.all (fun r => ¬ (r.take l = rev.take l)) = true
    · rw [if_pos hall]
      refine Or.inr ⟨l, Nat.le_refl l, by omega, rfl, ?_⟩
      intro r hr
      exact of_decide_eq_true (List.all_eq_true.mp hall r hr)
    · rw [if_neg hall]
      rcases ih (l + 1) with h | ⟨m, hm1, hm2, hm3, hm4⟩
      · exact Or.inl h
      · exact Or.inr ⟨m, by omega, by omega, hm3, hm4⟩

theorem filter_eq_singleton {p : Rev → Bool} {l : List Rev} {x : Rev}
    (hx : x ∈ l) (hnd : l.Nodup) (hpx : p x = true)
    (hothers : ∀ y ∈ l, ¬ (y = x) → p y = false) :
    l.filter p = [x] := by
  induction l with
  | nil => cases hx
  | cons a l ih =>
    have hndc := List.nodup_cons.mp hnd
    rcases List.mem_cons.mp hx with hax | hxl
    · rw [← hax] at hndc
      rw [← hax]
      rw [List.filter_cons_of_pos hpx]
      have hnil : l.filter p = [] := by
        rw [List.filter_eq_nil_iff]
        intro y hy
        have hyx : ¬ (y = x) := fun he => hndc.1 (he ▸ hy)
        rw [hothers y (hax ▸ List.mem_cons_of_mem a hy) hyx]
        exact Bool.false_ne_true
      rw [hnil]
    · have hax : ¬ (a = x) := by
        intro he
        exact hndc.1 (he ▸ hxl)
      rw [List.filter_cons_of_neg]
      · exact ih hxl hndc.2 (fun y hy hne => hothers y (List.mem_cons_of_mem a hy) hne)
      · rw [hothers a (List.mem_cons_self a l) hax]
        exact Bool.false_ne_true

theorem hex_take {rev : Rev} (m : Nat) (hhex : rev.all isHexDigit = true) :
    (rev.take m).all isHexDigit = true := by
  rw [List.all_eq_true] at hhex ⊢
  exact fun c hc => hhex c (List.take_subset m rev hc)

theorem revKey_take {rev : Rev} {m : Nat} (hm : 4 ≤ m) :
    revKey (rev.take m) = revKey rev := by
  unfold revKey
  rw [List.take_take, Nat.min_eq_left hm]

/-- The easy direction of `fullrev`: a full 40-character identifier known
to the cache resolves to itself. -/
theorem fullrev_self (rc : RevCache) (rev : Rev) (hrev40 : rev.length = 40)
    (hfind : (dbFind rc.rev_dict rev).isSome = true) :
    fullrev rc rev = some rev := by
  unfold fullrev
  rw [if_pos]
  rw [hrev40, hfind]
  rfl

/-- `fullrev` of a prefix of `rev` that no other bucket member shares
resolves to exactly `rev`. -/
theorem fullrev_take (rc : RevCache) (rev : Rev) (m : Nat) (bucket : List Rev)
    (hrev40 : rev.length = 40) (hhex : rev.all isHexDigit = true)
    (_hfind : (dbFind rc.rev_dict rev).isSome = true)
    (hb : srevFind rc.srev_dict (revKey rev) = some bucket)
    (hmem : rev ∈ bucket) (hnd : bucket.Nodup)
    (_hblen : ∀ s ∈ bucket, s.length = 40)
    (hm4 : 4 ≤ m) (hm40 : m < 40)
    (hunique : ∀ s ∈ bucket, ¬ (s = rev) → ¬ (s.take m = rev.take m)) :
    fullrev rc (rev.take m) = some rev := by
  have hlen : (rev.take m).length = m := by
    rw [List.length_take, hrev40]
    omega
  unfold fullrev
  rw [if_neg]
  · rw [if_neg]
    · rw [revKey_take hm4, hb]
      have hfilter : bucket.filter (fun s => (rev.take m).isPrefixOf s) = [rev] := by
        refine filter_eq_singleton hmem hnd ?_ ?_
        · exact List.isPrefixOf_iff_prefix.mpr (List.take_prefix m rev)
        · intro y hy hne
          rw [← Bool.not_eq_true]
          intro hp
          have hpre := List.isPrefixOf_iff_prefix.mp hp
          have : rev.take m = y.take m := by
            have := List.prefix_iff_eq_take.mp hpre
            rwa [hlen] at this
          exact hunique y hy hne this.symm
      simp only [hfilter]
    · rw [Decidable.not_not]
      unfold isSha
      rw [hlen]
      have h4 : (4 ≤ m) = True := by simp [hm4]
      have h40 : (m ≤ 40) = True := by simp [Nat.le_of_lt hm40]
      rw [hex_take m hhex]
      simp [hm4, Nat.le_of_lt hm40]
  · intro hcond
    have := Bool.and_elim_left hcond
    have hlen40 : ((rev.take m).length = 40) := of_decide_eq_true this
    omega

/-- Claim C2: for a 40-hex revision of the cache whose bucket contains it
(without duplicates, all members full identifiers), `shortrev` followed
by `fullrev` returns the original revision, for every requested minimum
length. -/
theorem claim_c2 (rc : RevCache) (rev : Rev) (k : Nat) (e : RevEntry)
    (bucket : List Rev)
    (hfind : dbFind rc.rev_dict rev = some e)
    (hrev40 : rev.length = 40) (hhex : rev.all isHexDigit = true)
    (hb : srevFind rc.srev_dict (revKey rev) = some bucket)
    (hmem : rev ∈ bucket) (hnd : bucket.Nodup)
    (hblen : ∀ s ∈ bucket, s.length = 40) :
    ∃ srev, shortrev rc rev k = some srev ∧ fullrev rc srev = some rev := by
  have hsome : (dbFind rc.rev_dict rev).isSome = true := by rw [hfind]; rfl
  have hded : bucket.dedup = bucket := List.dedup_eq_self.mpr hnd
  have hm0 : 4 ≤ (if k < SREV_MIN then SREV_MIN else k) := by
    unfold SREV_MIN
    split <;> omega
  by_cases h1 : bucket.length = 1
  · have hbucket : bucket = [rev] := by
      cases bucket with
      | nil => cases hmem
      | cons b rest =>
        cases rest with
        | nil =>
          have : b = rev := (List.mem_singleton.mp hmem).symm
          rw [this]
        | cons b2 rest2 => simp at h1
    refine ⟨rev.take (if k < SREV_MIN then SREV_MIN else k), ?_, ?_⟩
    · simp only [shortrev, hfind, hb, Option.getD_some, hded, hbucket]
      rfl
    · by_cases hm40 : (if k < SREV_MIN then SREV_MIN else k) < 40
      · refine fullrev_take rc rev _ bucket hrev40 hhex hsome hb hmem hnd hblen hm0 hm40 ?_
        intro s hs hne
        rw [hbucket] at hs
        exact absurd (List.mem_singleton.mp hs) hne
      · rw [List.take_of_length_le (by omega)]
        exact fullrev_self rc rev hrev40 hsome
  · have hcrevs : ∀ s ∈ bucket, ¬ (s = rev) →
        s ∈ bucket.filter (fun r => ¬ (r = rev)) := by
      intro s hs hne
      rw [List.mem_filter]
      exact ⟨hs, decide_eq_true hne⟩
    refine ⟨shortrevFrom rev (bucket.filter (fun r => ¬ (r = rev)))
      ((if k < SREV_MIN then SREV_MIN else k) + 1), ?_, ?_⟩
    · simp only [shortrev, hfind, hb, Option.getD_some, hded]
      rw [if_neg h1]
    · unfold shortrevFrom
      rcases shortrevGo_spec rev (bucket.filter (fun r => ¬ (r = rev)))
          (40 - ((if k < SREV_MIN then SREV_MIN else k) + 1))
          ((if k < SREV_MIN then SREV_MIN else k) + 1) with h | ⟨m, hm1, hm2, hm3, hm4⟩
      · rw [h]
        exact fullrev_self rc rev hrev40 hsome
      · rw [hm3]
        refine fullrev_take rc rev m bucket hrev40 hhex hsome hb hmem hnd hblen
          (by omega) (by omega) ?_
        intro s hs hne
        exact hm4 s (hcrevs s hs hne)

/-- First member of the shared C2 bucket (the two revisions agree on the
first ten characters). -/
def c2RevX : Rev := "aaaa000000111111111111111111111111111111".data

/-- Second member of the shared C2 bucket. -/
def c2RevY : Rev := "aaaa000000222222222222222222222222222222".data

/-- A cache whose single bucket holds both revisions. -/
def c2Cache : RevCache :=
  buildRevCache [("refs/heads/m".data, c2RevX)] [(c2RevX, [c2RevY]), (c2RevY, [])]

/-- Witness for C2 at the two-member bucket and minimum length 7. -/
theorem claim_c2_witness :
    ∃ srev, shortrev c2Cache c2RevX 7 = some srev ∧
      fullrev c2Cache srev = some c2RevX := by
  exact claim_c2 c2Cache c2RevX 7 ⟨[], [c2RevY], 1, [c2RevX]⟩ [c2RevX, c2RevY]
    (by decide) (by decide) (by decide) (by decide) (by decide) (by decide) (by decide)

/-! ### Claim C4: breadth-first descendants -/

/-- `x` is a true descendant of `root`: reachable along child edges. -/
inductive Descendant (db : RevDb) (root : Rev) : Rev → Prop where
  | base {c : Rev} {e : RevEntry} :
      dbFind db root = some e → c ∈ e.children → Descendant db root c
  | step {x c : Rev} {e : RevEntry} :
      Descendant db root x → dbFind db x = some e → c ∈ e.children →
      Descendant db root c

theorem bfsAux_succ (db : RevDb) (fuel : Nat) (p : Rev) (rest seen : List Rev) :
    bfsAux db (fuel + 1) (p :: rest) seen =
      match dbFind db p with
      | none => none
      | some e =>
        (bfsAux db fuel (rest ++ e.children.filter (fun c => ¬ (c ∈ seen)))
          (seen ++ e.children.filter (fun c => ¬ (c ∈ seen)))).map
          (fun l => p :: l) := rfl

theorem bfsAux_total (db : RevDb)
    (hclosure : ∀ kv ∈ db, ∀ c ∈ kv.2.children, (dbFind db c).isSome = true)
    (hcnodup : ∀ kv ∈ db, kv.2.children.Nodup) :
    ∀ fuel wl seen, (∀ x ∈ wl, (dbFind db x).isSome = true) →
      ((dbKeys db).toFinset \ seen.toFinset).card + wl.length < fuel →
      (bfsAux db fuel wl seen).isSome = true := by
  intro fuel
  induction fuel with
  | zero =>
    intro wl seen _ hcard
    omega
  | succ fuel ih =>
    intro wl seen hwl hcard
    cases wl with
    | nil => rfl
    | cons p rest =>
      obtain ⟨e, he⟩ := Option.isSome_iff_exists.mp (hwl p (List.mem_cons_self p rest))
      rw [bfsAux_succ, he, Option.isSome_map']
      have hkv := dbFind_some_mem he
      refine ih (rest ++ e.children.filter (fun c => ¬ (c ∈ seen)))
        (seen ++ e.children.filter (fun c => ¬ (c ∈ seen))) ?_ ?_
      · intro x hx
        rcases List.mem_append.mp hx with hx | hx
        · exact hwl x (List.mem_cons_of_mem p hx)
        · exact hclosure _ hkv x (List.mem_of_mem_filter hx)
      · have hkid_keys : ∀ c ∈ e.children.filter (fun c => ¬ (c ∈ seen)),
            c ∈ dbKeys db := fun c hc =>
          dbFind_isSome_iff_mem.mp (hclosure _ hkv c (List.mem_of_mem_filter hc))
        have hkid_nseen : ∀ c ∈ e.children.filter (fun c => ¬ (c ∈ seen)),
            ¬ (c ∈ seen) := fun c hc => of_decide_eq_true (List.mem_filter.mp hc).2
        have hkidnd : (e.children.filter (fun c => ¬ (c ∈ seen))).Nodup :=
          (hcnodup _ hkv).filter _
        have hsub : (e.children.filter (fun c => ¬ (c ∈ seen))).toFinset ⊆
            (dbKeys db).toFinset \ seen.toFinset := by
          intro c hc
          rw [List.mem_toFinset] at hc
          rw [Finset.mem_sdiff, List.mem_toFinset, List.mem_toFinset]
          exact ⟨hkid_keys c hc, hkid_nseen c hc⟩
        have hsplit : (dbKeys db).toFinset \
            (seen ++ e.children.filter (fun c => ¬ (c ∈ seen))).toFinset =
            ((dbKeys db).toFinset \ seen.toFinset) \
              (e.children.filter (fun c => ¬ (c ∈ seen))).toFinset := by
          rw [List.toFinset_append]
          ext a
          simp only [Finset.mem_sdiff, Finset.mem_union]
          tauto
        have hcard2 := Finset.card_sdiff hsub
        have hle := Finset.card_le_card hsub
        rw [List.toFinset_card_of_nodup hkidnd] at hcard2 hle
        rw [hsplit, hcard2]
        rw [List.length_append]
        have hlen : (p :: rest).length = rest.length + 1 := by simp
        rw [hlen] at hcard
        omega

theorem bfsAux_mem (db : RevDb) :
    ∀ fuel wl seen l, bfsAux db fuel wl seen = some l →
      ∀ x ∈ l, x ∈ wl ∨ ¬ (x ∈ seen) := by
  intro fuel
  induction fuel with
  | zero =>
    intro wl seen l h
    cases h
  | succ fuel ih =>
    intro wl seen l h x hx
    cases wl with
    | nil =>
      injection h with h
      rw [← h] at hx
      cases hx
    | cons p rest =>
      rw [bfsAux_succ] at h
      cases he : dbFind db p with
      | none =>
        rw [he] at h
        cases h
      | some e =>
        rw [he] at h
        obtain ⟨l2, hl2, heq⟩ := Option.map_eq_some'.mp h
        rw [← heq] at hx
        rcases List.mem_cons.mp hx with hx | hx
        · exact Or.inl (hx ▸ List.mem_cons_self p rest)
        · rcases ih _ _ l2 hl2 x hx with h2 | h2
          · rcases List.mem_append.mp h2 with h3 | h3
            · exact Or.inl (List.mem_cons_of_mem p h3)
            · exact Or.inr (of_decide_eq_true (List.mem_filter.mp h3).2)
          · exact Or.inr (fun hs => h2 (List.mem_append.mpr (Or.inl hs)))

theorem bfsAux_nodup (db : RevDb)
    (hcnodup : ∀ kv ∈ db, kv.2.children.Nodup) :
    ∀ fuel wl seen l, bfsAux db fuel wl seen = some l →
      wl.Nodup → (∀ x ∈ wl, x ∈ seen) → l.Nodup := by
  intro fuel
  induction fuel with
  | zero =>
    intro wl seen l h
    cases h
  | succ fuel ih =>
    intro wl seen l h hnd hsub
    cases wl with
    | nil =>
      injection h with h
      rw [← h]
      exact List.nodup_nil
    | cons p rest =>
      rw [bfsAux_succ] at h
      cases he : dbFind db p with
      | none =>
        rw [he] at h
        cases h
      | some e =>
        rw [he] at h
        obtain ⟨l2, hl2, heq⟩ := Option.map_eq_some'.mp h
        have hkv := dbFind_some_mem he
        have hkid_nseen : ∀ c ∈ e.children.filter (fun c => ¬ (c ∈ seen)),
            ¬ (c ∈ seen) := fun c hc => of_decide_eq_true (List.mem_filter.mp hc).2
        have hndc := List.nodup_cons.mp hnd
        have hnd2 : (rest ++ e.children.filter (fun c => ¬ (c ∈ seen))).Nodup := by
          rw [List.nodup_append]
          refine ⟨hndc.2, (hcnodup _ hkv).filter _, ?_⟩
          intro a ha ha2
          exact hkid_nseen a ha2 (hsub a (List.mem_cons_of_mem p ha))
        have hsub2 : ∀ x ∈ rest ++ e.children.filter (fun c => ¬ (c ∈ seen)),
            x ∈ seen ++ e.children.filter (fun c => ¬ (c ∈ seen)) := by
          intro x hx
          rcases List.mem_append.mp hx with hx | hx
          · exact List.mem_append.mpr (Or.inl (hsub x (List.mem_cons_of_mem p hx)))
          · exact List.mem_append.mpr (Or.inr hx)
        have hl2nd := ih _ _ l2 hl2 hnd2 hsub2
        rw [← heq]
        rw [List.nodup_cons]
        refine ⟨?_, hl2nd⟩
        intro hpl2
        rcases bfsAux_mem db fuel _ _ l2 hl2 p hpl2 with h2 | h2
        · rcases List.mem_append.mp h2 with h3 | h3
          · exact hndc.1 h3
          · exact hkid_nseen p h3 (hsub p (List.mem_cons_self p rest))
        · exact h2 (List.mem_append.mpr (Or.inl (hsub p (List.mem_cons_self p rest))))

theorem bfsAux_desc (db : RevDb) (root : Rev) :
    ∀ fuel wl seen l, bfsAux db fuel wl seen = some l →
      (∀ x ∈ wl, Descendant db root x) → ∀ x ∈ l, Descendant db root x := by
  intro fuel
  induction fuel with
  | zero =>
    intro wl seen l h
    cases h
  | succ fuel ih =>
    intro wl seen l h hwl x hx
    cases wl with
    | nil =>
      injection h with h
      rw [← h] at hx
      cases hx
    | cons p rest =>
      rw [bfsAux_succ] at h
      cases he : dbFind db p with
      | none =>
        rw [he] at h
        cases h
      | some e =>
        rw [he] at h
        obtain ⟨l2, hl2, heq⟩ := Option.map_eq_some'.mp h
        rw [← heq] at hx
        have hp := hwl p (List.mem_cons_self p rest)
        rcases List.mem_cons.mp hx with hx | hx
        · exact hx ▸ hp
        · refine ih _ _ l2 hl2 ?_ x hx
          intro y hy
          rcases List.mem_append.mp hy with hy | hy
          · exact hwl y (List.mem_cons_of_mem p hy)
          · exact Descendant.step hp he (List.mem_of_mem_filter hy)

/-- Claim C4: `children_recursive` terminates on every well-formed cache
(the explicit fuel suffices), yields each revision at most once, yields
only true descendants of the start revision, and on the linear chain
a -> b -> c -> d started at a yields exactly [b, c, d] in breadth
order. -/
theorem claim_c4 (db : RevDb) (sha : Rev) (e : RevEntry)
    (hfind : dbFind db sha = some e)
    (hclosure : ∀ kv ∈ db, ∀ c ∈ kv.2.children, (dbFind db c).isSome = true)
    (hcnodup : ∀ kv ∈ db, kv.2.children.Nodup) :
    (∃ l, childrenRecursive db sha = some l ∧ l.Nodup ∧
      ∀ x ∈ l, Descendant db sha x) ∧
    childrenRecursive chainDb chA = some [chB, chC, chD] := by
  constructor
  · have hkv := dbFind_some_mem hfind
    have hwl : ∀ x ∈ e.children, (dbFind db x).isSome = true :=
      fun x hx => hclosure _ hkv x hx
    have hcard : ((dbKeys db).toFinset \ e.children.toFinset).card + e.children.length <
        db.length + e.children.length + 1 := by
      have h1 : ((dbKeys db).toFinset \ e.children.toFinset).card ≤
          (dbKeys db).toFinset.card := Finset.card_le_card (Finset.sdiff_subset)
      have h2 : (dbKeys db).toFinset.card ≤ (dbKeys db).length :=
        List.toFinset_card_le (dbKeys db)
      have h3 : (dbKeys db).length = db.length := List.length_map db _
      omega
    have hsome := bfsAux_total db hclosure hcnodup (db.length + e.children.length + 1)
      e.children e.children hwl hcard
    have hCR : childrenRecursive db sha =
        bfsAux db (db.length + e.children.length + 1) e.children e.children := by
      simp only [childrenRecursive, hfind]
    obtain ⟨l, hl⟩ := Option.isSome_iff_exists.mp hsome
    refine ⟨l, by rw [hCR]; exact hl, ?_, ?_⟩
    · exact bfsAux_nodup db hcnodup _ _ _ l hl (hcnodup _ hkv) (fun x hx => hx)
    · exact bfsAux_desc db sha _ _ _ l hl
        (fun x hx => Descendant.base hfind hx)
  · decide

/-- Witness for C4 on the chain cache. -/
theorem claim_c4_witness :
    (∃ l, childrenRecursive chainDb chA = some l ∧ l.Nodup ∧
      ∀ x ∈ l, Descendant chainDb chA x) ∧
    childrenRecursive chainDb chA = some [chB, chC, chD] :=
  claim_c4 chainDb chA ⟨[chB], [], 1, []⟩ (by decide) (by decide) (by decide)

end PyGit
